import Mathlib

/-
Verification of the SharedPtr/WeakPtr library (src/shared_ptr.h) against its
natural-language specification.

The C++ code is shallowly embedded as a state machine.  A `State` holds
a heap of control blocks (`Counter`, as in the source), one slot list for
live `SharedPtr` objects and one for live `WeakPtr` objects, and logs of
every `delete ptr_` and `delete counter_` the code performs.  Each public
member function of the two classes becomes one operation of the machine,
translated line by line from the source.  Object and control-block
addresses are natural numbers; `T* ptr_` and `Counter* counter_` become
`Option` of an address.  The `size_t` counters are modelled as `Nat`
(the spec's own data model gives them as unbounded unsigned integers).
Reads or writes through a control-block pointer that is no longer
allocated would be undefined behaviour in C++; the model makes these
no-ops, and the proved invariant shows they are never reached from the
initial state.
-/

set_option maxHeartbeats 1000000

namespace SPtr

/-- Address of a heap-allocated managed object (the value of a `T*`). -/
abbrev OAddr := Nat

/-- Address of a heap-allocated control block (the value of a `Counter*`). -/
abbrev CAddr := Nat

/-- struct Counter of the source: the control block's two counters. -/
structure Counter where
  strong_count : Nat
  weak_count : Nat
deriving DecidableEq, Repr

/-- Counter's constructor: strong_count(1), weak_count(0). -/
def Counter.init : Counter := ⟨1, 0⟩

/-- The data members common to SharedPtr and WeakPtr: `T* ptr_` and
`Counter* counter_`, both nullable. -/
structure Handle where
  ptr : Option OAddr
  counter : Option CAddr
deriving DecidableEq, Repr

/-- A handle whose two members are both nullptr. -/
def nullHandle : Handle := ⟨none, none⟩

/-- The heap of control blocks: `none` means not allocated (never, or freed). -/
abbrev CHeap := CAddr → Option Counter

/-- Pointwise update of the control-block heap. -/
def fupdate (f : CHeap) (a : CAddr) (v : Option Counter) : CHeap :=
  fun x => if x = a then v else f x

/-- `delete ptr_` : deleting a null pointer is a no-op, otherwise the object
address is logged as destroyed. -/
def delObj : Option OAddr → List OAddr
  | some o => [o]
  | none => []

/-- SharedPtr::Release acting on the heap, given the handle's members.
Returns the new heap, the objects passed to `delete ptr_`, and the control
blocks passed to `delete counter_`.  Mirrors:
if (counter_) { if (--(counter_->strong_count) == 0) { delete ptr_;
if (counter_->weak_count == 0) delete counter_; } } -/
def sharedReleaseH (f : CHeap) (h : Handle) : CHeap × List OAddr × List CAddr :=
  match h.counter with
  | none => (f, [], [])
  | some c =>
    match f c with
    | none => (f, [], [])
    | some cnt =>
      if cnt.strong_count - 1 = 0 then
        if cnt.weak_count = 0 then
          (fupdate f c none, delObj h.ptr, [c])
        else
          (fupdate f c (some ⟨0, cnt.weak_count⟩), delObj h.ptr, [])
      else
        (fupdate f c (some ⟨cnt.strong_count - 1, cnt.weak_count⟩), [], [])

/-- WeakPtr::Release acting on the heap.  Mirrors:
if (counter_) { if (--(counter_->weak_count) == 0 && counter_->strong_count == 0)
delete counter_; } -/
def weakReleaseH (f : CHeap) (h : Handle) : CHeap × List CAddr :=
  match h.counter with
  | none => (f, [])
  | some c =>
    match f c with
    | none => (f, [])
    | some cnt =>
      if cnt.weak_count - 1 = 0 ∧ cnt.strong_count = 0 then
        (fupdate f c none, [c])
      else
        (fupdate f c (some ⟨cnt.strong_count, cnt.weak_count - 1⟩), [])

/-- `if (counter_) ++(counter_->strong_count);` on the heap. -/
def incStrongH (f : CHeap) (oc : Option CAddr) : CHeap :=
  match oc with
  | none => f
  | some c =>
    match f c with
    | none => f
    | some cnt => fupdate f c (some ⟨cnt.strong_count + 1, cnt.weak_count⟩)

/-- `if (counter_) ++(counter_->weak_count);` on the heap. -/
def incWeakH (f : CHeap) (oc : Option CAddr) : CHeap :=
  match oc with
  | none => f
  | some c =>
    match f c with
    | none => f
    | some cnt => fupdate f c (some ⟨cnt.strong_count, cnt.weak_count + 1⟩)

/-- Whole-program state: the control-block heap, an allocator cursor for
fresh control-block addresses, the slots of currently existing SharedPtr
and WeakPtr objects (`none` = that handle object has been destroyed), and
the logs of object deletions and control-block deallocations. -/
structure State where
  heap : CHeap
  nextC : CAddr
  strongs : List (Option Handle)
  weaks : List (Option Handle)
  deletedObjs : List OAddr
  freedCtrs : List CAddr

/-- The empty initial state. -/
def init : State := ⟨fun _ => none, 0, [], [], [], []⟩

/-- The members of the i-th SharedPtr, if that handle object exists. -/
def getS (st : State) (i : Nat) : Option Handle := (st.strongs.get? i).bind id

/-- The members of the i-th WeakPtr, if that handle object exists. -/
def getW (st : State) (i : Nat) : Option Handle := (st.weaks.get? i).bind id

/-- Overwrite the i-th SharedPtr slot. -/
def setS (st : State) (i : Nat) (x : Option Handle) : State :=
  { st with strongs := st.strongs.set i x }

/-- Overwrite the i-th WeakPtr slot. -/
def setW (st : State) (i : Nat) (x : Option Handle) : State :=
  { st with weaks := st.weaks.set i x }

/-- A newly constructed SharedPtr object occupies a fresh slot. -/
def pushS (st : State) (h : Handle) : State :=
  { st with strongs := st.strongs ++ [some h] }

/-- A newly constructed WeakPtr object occupies a fresh slot. -/
def pushW (st : State) (h : Handle) : State :=
  { st with weaks := st.weaks ++ [some h] }

/-- SharedPtr::Release as a state transformer (heap plus deletion logs). -/
def State.sRel (st : State) (h : Handle) : State :=
  { st with
    heap := (sharedReleaseH st.heap h).1,
    deletedObjs := st.deletedObjs ++ (sharedReleaseH st.heap h).2.1,
    freedCtrs := st.freedCtrs ++ (sharedReleaseH st.heap h).2.2 }

/-- WeakPtr::Release as a state transformer. -/
def State.wRel (st : State) (h : Handle) : State :=
  { st with
    heap := (weakReleaseH st.heap h).1,
    freedCtrs := st.freedCtrs ++ (weakReleaseH st.heap h).2 }

/-- Strong-count increment as a state transformer. -/
def State.incS (st : State) (oc : Option CAddr) : State :=
  { st with heap := incStrongH st.heap oc }

/-- Weak-count increment as a state transformer. -/
def State.incW (st : State) (oc : Option CAddr) : State :=
  { st with heap := incWeakH st.heap oc }

/-- `new Counter()`: allocate a fresh control block with strong=1, weak=0. -/
def State.alloc (st : State) : State :=
  { st with heap := fupdate st.heap st.nextC (some Counter.init),
            nextC := st.nextC + 1 }

/-- UseCount() of a handle: `counter_ ? counter_->strong_count : 0`
(identical in SharedPtr and WeakPtr). -/
def State.UseCount (st : State) (h : Handle) : Nat :=
  match h.counter with
  | none => 0
  | some c =>
    match st.heap c with
    | none => 0
    | some cnt => cnt.strong_count

/-- WeakPtr::Expired() : `UseCount() == 0`. -/
def State.Expired (st : State) (h : Handle) : Bool := st.UseCount h == 0

/-- SharedPtr() : a null handle. -/
def stepSDefault (st : State) : State := pushS st nullHandle

/-- explicit SharedPtr(T* ptr) : ptr_(ptr), counter_(ptr ? new Counter() : nullptr).
The new handle's control block is the freshly allocated address. -/
def stepSFromRaw (st : State) (o : Option OAddr) : State :=
  match o with
  | none => pushS st nullHandle
  | some a => pushS st.alloc ⟨some a, some st.nextC⟩

/-- SharedPtr(const SharedPtr& other) : copies the members and does
`if (counter_) ++(counter_->strong_count)`. -/
def stepSCopy (st : State) (i : Nat) : State :=
  match getS st i with
  | none => st
  | some h => pushS (st.incS h.counter) h

/-- SharedPtr(SharedPtr&& other) : takes the members, nulls the source. -/
def stepSMove (st : State) (i : Nat) : State :=
  match getS st i with
  | none => st
  | some h => pushS (setS st i (some nullHandle)) h

/-- SharedPtr(const WeakPtr&) : throws BadWeakPtr if expired (no state
change, no object constructed); otherwise copies the members and
increments the strong count. -/
def stepSFromWeak (st : State) (i : Nat) : State :=
  match getW st i with
  | none => st
  | some w =>
    if st.Expired w then st
    else pushS (st.incS w.counter) ⟨w.ptr, w.counter⟩

/-- SharedPtr::operator=(const SharedPtr& other) : guarded by
`this != &other`; otherwise Release(), copy members, conditional increment. -/
def stepSAssignCopy (st : State) (d s : Nat) : State :=
  if d = s then st
  else
    match getS st d, getS st s with
    | some hd, some hs => setS ((st.sRel hd).incS hs.counter) d (some hs)
    | _, _ => st

/-- SharedPtr::operator=(SharedPtr&& other) : guarded by `this != &other`;
otherwise Release(), take members, null the source. -/
def stepSAssignMove (st : State) (d s : Nat) : State :=
  if d = s then st
  else
    match getS st d, getS st s with
    | some hd, some hs => setS (setS (st.sRel hd) d (some hs)) s (some nullHandle)
    | _, _ => st

/-- SharedPtr::operator=(const WeakPtr&) : throws BadWeakPtr if the weak
handle is expired (before any mutation); otherwise Release(), copy the
weak handle's members, increment the strong count. -/
def stepSAssignWeak (st : State) (d w : Nat) : State :=
  match getS st d, getW st w with
  | some hd, some hw =>
    if st.Expired hw then st
    else setS ((st.sRel hd).incS hw.counter) d (some ⟨hw.ptr, hw.counter⟩)
  | _, _ => st

/-- SharedPtr::Reset(T* ptr = nullptr) : guarded by `if (ptr != ptr_)`;
otherwise Release(), then either adopt ptr with a new Counter or null out. -/
def stepSReset (st : State) (i : Nat) (o : Option OAddr) : State :=
  match getS st i with
  | none => st
  | some h =>
    if o = h.ptr then st
    else
      match o with
      | some a => setS (st.sRel h).alloc i (some ⟨some a, some st.nextC⟩)
      | none => setS (st.sRel h) i (some nullHandle)

/-- SharedPtr::Swap : std::swap on both members. -/
def stepSSwap (st : State) (i j : Nat) : State :=
  match getS st i, getS st j with
  | some hi, some hj => setS (setS st i (some hj)) j (some hi)
  | _, _ => st

/-- ~SharedPtr() : Release(); the handle object ceases to exist. -/
def stepSDestroy (st : State) (i : Nat) : State :=
  match getS st i with
  | none => st
  | some h => setS (st.sRel h) i none

/-- WeakPtr() : a null handle. -/
def stepWDefault (st : State) : State := pushW st nullHandle

/-- WeakPtr(const SharedPtr&) : copies the members, conditional weak
increment. -/
def stepWFromShared (st : State) (i : Nat) : State :=
  match getS st i with
  | none => st
  | some h => pushW (st.incW h.counter) h

/-- WeakPtr(const WeakPtr& other) : copies the members, conditional weak
increment. -/
def stepWCopy (st : State) (i : Nat) : State :=
  match getW st i with
  | none => st
  | some h => pushW (st.incW h.counter) h

/-- WeakPtr(WeakPtr&& other) : takes the members, nulls the source. -/
def stepWMove (st : State) (i : Nat) : State :=
  match getW st i with
  | none => st
  | some h => pushW (setW st i (some nullHandle)) h

/-- WeakPtr::operator=(const SharedPtr&) : Release(), copy members,
conditional weak increment (no self test is possible across types). -/
def stepWAssignShared (st : State) (d s : Nat) : State :=
  match getW st d, getS st s with
  | some hd, some hs => setW ((st.wRel hd).incW hs.counter) d (some hs)
  | _, _ => st

/-- WeakPtr::operator=(const WeakPtr& other) : guarded by `this != &other`;
otherwise Release(), copy members, conditional weak increment. -/
def stepWAssignCopy (st : State) (d s : Nat) : State :=
  if d = s then st
  else
    match getW st d, getW st s with
    | some hd, some hs => setW ((st.wRel hd).incW hs.counter) d (some hs)
    | _, _ => st

/-- WeakPtr::operator=(WeakPtr&& other) : guarded by `this != &other`;
otherwise Release(), take members, null the source. -/
def stepWAssignMove (st : State) (d s : Nat) : State :=
  if d = s then st
  else
    match getW st d, getW st s with
    | some hd, some hs => setW (setW (st.wRel hd) d (some hs)) s (some nullHandle)
    | _, _ => st

/-- WeakPtr::Reset() : Release(), then null both members. -/
def stepWReset (st : State) (i : Nat) : State :=
  match getW st i with
  | none => st
  | some h => setW (st.wRel h) i (some nullHandle)

/-- WeakPtr::Swap : std::swap on both members. -/
def stepWSwap (st : State) (i j : Nat) : State :=
  match getW st i, getW st j with
  | some hi, some hj => setW (setW st i (some hj)) j (some hi)
  | _, _ => st

/-- ~WeakPtr() : Release(); the handle object ceases to exist. -/
def stepWDestroy (st : State) (i : Nat) : State :=
  match getW st i with
  | none => st
  | some h => setW (st.wRel h) i none

/-- WeakPtr::Lock() : if Expired() a default SharedPtr, else
SharedPtr(*this); the resulting SharedPtr is a new handle object. -/
def stepWLock (st : State) (i : Nat) : State :=
  match getW st i with
  | none => st
  | some w =>
    if st.Expired w then pushS st nullHandle
    else pushS (st.incS w.counter) ⟨w.ptr, w.counter⟩

/-- One operation of a client program: each constructor names the C++
member function it invokes, with the slot indices of the handle objects
involved.  An index whose slot does not hold a live handle makes the
operation a no-op (such a call cannot be written in C++). -/
inductive Op where
  | sDefault
  | sFromRaw (o : Option OAddr)
  | sCopy (i : Nat)
  | sMove (i : Nat)
  | sFromWeak (i : Nat)
  | sAssignCopy (d s : Nat)
  | sAssignMove (d s : Nat)
  | sAssignWeak (d w : Nat)
  | sReset (i : Nat) (o : Option OAddr)
  | sSwap (i j : Nat)
  | sDestroy (i : Nat)
  | wDefault
  | wFromShared (i : Nat)
  | wCopy (i : Nat)
  | wMove (i : Nat)
  | wAssignShared (d s : Nat)
  | wAssignCopy (d s : Nat)
  | wAssignMove (d s : Nat)
  | wReset (i : Nat)
  | wSwap (i j : Nat)
  | wDestroy (i : Nat)
  | wLock (i : Nat)
deriving DecidableEq, Repr

/-- The machine's step function: dispatch to the member function. -/
def step (st : State) : Op → State
  | .sDefault => stepSDefault st
  | .sFromRaw o => stepSFromRaw st o
  | .sCopy i => stepSCopy st i
  | .sMove i => stepSMove st i
  | .sFromWeak i => stepSFromWeak st i
  | .sAssignCopy d s => stepSAssignCopy st d s
  | .sAssignMove d s => stepSAssignMove st d s
  | .sAssignWeak d w => stepSAssignWeak st d w
  | .sReset i o => stepSReset st i o
  | .sSwap i j => stepSSwap st i j
  | .sDestroy i => stepSDestroy st i
  | .wDefault => stepWDefault st
  | .wFromShared i => stepWFromShared st i
  | .wCopy i => stepWCopy st i
  | .wMove i => stepWMove st i
  | .wAssignShared d s => stepWAssignShared st d s
  | .wAssignCopy d s => stepWAssignCopy st d s
  | .wAssignMove d s => stepWAssignMove st d s
  | .wReset i => stepWReset st i
  | .wSwap i j => stepWSwap st i j
  | .wDestroy i => stepWDestroy st i
  | .wLock i => stepWLock st i

/-- Run a client program from the empty initial state. -/
def run (tr : List Op) : State := tr.foldl step init

/-- The counter member of a slot, `none` for a destroyed slot. -/
def counterOf : Option Handle → Option CAddr
  | some h => h.counter
  | none => none

/-- Does this slot hold a live handle whose counter_ points at block c? -/
def hit (c : CAddr) (oh : Option Handle) : Bool := counterOf oh == some c

/-- Number of live SharedPtr objects whose counter_ points at block c. -/
def nStrong (st : State) (c : CAddr) : Nat := st.strongs.countP (hit c)

/-- Number of live WeakPtr objects whose counter_ points at block c. -/
def nWeak (st : State) (c : CAddr) : Nat := st.weaks.countP (hit c)

/-- Every allocated control block's counters equal the census of live
handles referencing it. -/
def countsOK (f : CHeap) (S W : List (Option Handle)) : Prop :=
  ∀ c cnt, f c = some cnt →
    cnt.strong_count = S.countP (hit c) ∧ cnt.weak_count = W.countP (hit c)

/-- Every live handle in the slot list has its ptr_ and counter_ null
together or non-null together, and its counter_ (if any) allocated. -/
def refsOK (f : CHeap) (L : List (Option Handle)) : Prop :=
  ∀ h : Handle, some h ∈ L →
    (h.ptr.isSome ↔ h.counter.isSome) ∧ ∀ c, h.counter = some c → (f c).isSome

/-- Addresses at or beyond the allocation cursor are unallocated. -/
def freshOK (f : CHeap) (n : CAddr) : Prop := ∀ c, n ≤ c → f c = none

/-- The four invariant components over raw data. -/
def invOn (f : CHeap) (S W : List (Option Handle)) (n : CAddr) : Prop :=
  countsOK f S W ∧ refsOK f S ∧ refsOK f W ∧ freshOK f n

/-- The global state invariant. -/
def Inv (st : State) : Prop := invOn st.heap st.strongs st.weaks st.nextC

theorem hit_none (c : CAddr) : hit c none = false := rfl

theorem hit_nullHandle (c : CAddr) : hit c (some nullHandle) = false := rfl

theorem hit_some (c : CAddr) (h : Handle) :
    hit c (some h) = true ↔ h.counter = some c := by
  simp [hit, counterOf]

theorem hit_some_false (c : CAddr) (h : Handle) :
    hit c (some h) = false ↔ h.counter ≠ some c := by
  rw [← Bool.not_eq_true, not_iff_not]
  exact hit_some c h

theorem fupdate_self (f : CHeap) (a : CAddr) (v : Option Counter) :
    fupdate f a v a = v := by
  simp [fupdate]

theorem fupdate_other (f : CHeap) (a : CAddr) (v : Option Counter)
    (x : CAddr) (h : x ≠ a) : fupdate f a v x = f x := by
  simp [fupdate, h]

/-- Replacing the element at a position changes a countP by the difference
of the contributions, stated additively. -/
theorem countP_set_add {α : Type} (p : α → Bool) (l : List α) (i : Nat)
    (a x : α) (h : l.get? i = some a) :
    (l.set i x).countP p + (if p a then 1 else 0) =
      l.countP p + (if p x then 1 else 0) := by
  induction l generalizing i with
  | nil => simp at h
  | cons b t ih =>
    cases i with
    | zero =>
      simp only [List.get?] at h
      cases h
      simp only [List.set, List.countP_cons]
      omega
    | succ n =>
      simp only [List.get?] at h
      simp only [List.set, List.countP_cons]
      have := ih n h
      omega

/-- A membership-based zero count: no member satisfies the predicate. -/
theorem countP_zero_of_not {α : Type} (p : α → Bool) (l : List α)
    (h : ∀ a ∈ l, p a = false) : l.countP p = 0 := by
  rw [List.countP_eq_zero]
  intro a ha
  simp [h a ha]

/-- A member satisfying the predicate forces a positive count. -/
theorem countP_pos_of_mem {α : Type} (p : α → Bool) (l : List α) (a : α)
    (ha : a ∈ l) (hp : p a = true) : 0 < l.countP p := by
  rw [List.countP_pos_iff]
  exact ⟨a, ha, hp⟩

/-- Appending one element adds its contribution to a countP. -/
theorem countP_push {α : Type} (p : α → Bool) (l : List α) (x : α) :
    (l ++ [x]).countP p = l.countP p + (if p x then 1 else 0) := by
  simp [List.countP_append, List.countP_cons]

/-- refsOK transfers along a heap map that preserves allocatedness. -/
theorem refsOK_mono (f g : CHeap) (L : List (Option Handle))
    (hr : refsOK f L) (h : ∀ c, (f c).isSome → (g c).isSome) : refsOK g L := by
  intro x hx
  refine ⟨(hr x hx).1, fun c hc => h c ((hr x hx).2 c hc)⟩

/-- refsOK restricts to any slot list whose live members come from the
original list or are null handles. -/
theorem refsOK_of_mem (f : CHeap) (L L2 : List (Option Handle))
    (hr : refsOK f L)
    (hmem : ∀ h : Handle, some h ∈ L2 → some h ∈ L ∨ h = nullHandle) :
    refsOK f L2 := by
  intro x hx
  rcases hmem x hx with hin | hnull
  · exact hr x hin
  · subst hnull
    refine ⟨by simp [nullHandle], fun c hc => by simp [nullHandle] at hc⟩

/-- Updating an already-allocated address, or deallocating, keeps every
address at or beyond the cursor unallocated. -/
theorem freshOK_fupdate (f : CHeap) (n a : CAddr) (v : Option Counter)
    (hfr : freshOK f n) (ha : (f a).isSome ∨ v = none) :
    freshOK (fupdate f a v) n := by
  intro c hc
  by_cases hca : c = a
  · subst hca
    rcases ha with h | h
    · rw [hfr c hc] at h; simp at h
    · rw [fupdate_self, h]
  · rw [fupdate_other f a v c hca]
    exact hfr c hc

/-- An address that is allocated after fupdate-to-some was allocated before
or is the updated address. -/
theorem isSome_fupdate_some (f : CHeap) (a : CAddr) (v : Counter) (c : CAddr)
    (h : (f c).isSome) : (fupdate f a (some v) c).isSome := by
  by_cases hca : c = a
  · subst hca; rw [fupdate_self]; rfl
  · rw [fupdate_other f a (some v) c hca]; exact h

theorem sharedReleaseH_null (f : CHeap) (h : Handle) (hh : h.counter = none) :
    sharedReleaseH f h = (f, [], []) := by
  simp [sharedReleaseH, hh]

theorem sharedReleaseH_unalloc (f : CHeap) (h : Handle) (c : CAddr)
    (hh : h.counter = some c) (hf : f c = none) :
    sharedReleaseH f h = (f, [], []) := by
  simp [sharedReleaseH, hh, hf]

theorem sharedReleaseH_last (f : CHeap) (h : Handle) (c : CAddr)
    (cnt : Counter) (hh : h.counter = some c) (hf : f c = some cnt)
    (h1 : cnt.strong_count - 1 = 0) (h2 : cnt.weak_count = 0) :
    sharedReleaseH f h = (fupdate f c none, delObj h.ptr, [c]) := by
  simp [sharedReleaseH, hh, hf, h1, h2]

theorem sharedReleaseH_lastStrong (f : CHeap) (h : Handle) (c : CAddr)
    (cnt : Counter) (hh : h.counter = some c) (hf : f c = some cnt)
    (h1 : cnt.strong_count - 1 = 0) (h2 : cnt.weak_count ≠ 0) :
    sharedReleaseH f h =
      (fupdate f c (some ⟨0, cnt.weak_count⟩), delObj h.ptr, []) := by
  simp [sharedReleaseH, hh, hf, h1, h2]

theorem sharedReleaseH_dec (f : CHeap) (h : Handle) (c : CAddr)
    (cnt : Counter) (hh : h.counter = some c) (hf : f c = some cnt)
    (h1 : cnt.strong_count - 1 ≠ 0) :
    sharedReleaseH f h =
      (fupdate f c (some ⟨cnt.strong_count - 1, cnt.weak_count⟩), [], []) := by
  simp [sharedReleaseH, hh, hf, h1]

theorem weakReleaseH_null (f : CHeap) (h : Handle) (hh : h.counter = none) :
    weakReleaseH f h = (f, []) := by
  simp [weakReleaseH, hh]

theorem weakReleaseH_unalloc (f : CHeap) (h : Handle) (c : CAddr)
    (hh : h.counter = some c) (hf : f c = none) :
    weakReleaseH f h = (f, []) := by
  simp [weakReleaseH, hh, hf]

theorem weakReleaseH_last (f : CHeap) (h : Handle) (c : CAddr) (cnt : Counter)
    (hh : h.counter = some c) (hf : f c = some cnt)
    (h1 : cnt.weak_count - 1 = 0) (h2 : cnt.strong_count = 0) :
    weakReleaseH f h = (fupdate f c none, [c]) := by
  simp [weakReleaseH, hh, hf, h1, h2]

theorem weakReleaseH_dec (f : CHeap) (h : Handle) (c : CAddr) (cnt : Counter)
    (hh : h.counter = some c) (hf : f c = some cnt)
    (h1 : ¬(cnt.weak_count - 1 = 0 ∧ cnt.strong_count = 0)) :
    weakReleaseH f h =
      (fupdate f c (some ⟨cnt.strong_count, cnt.weak_count - 1⟩), []) := by
  simp only [weakReleaseH, hh, hf]
  rw [if_neg h1]

theorem incStrongH_null (f : CHeap) : incStrongH f none = f := rfl

theorem incStrongH_unalloc (f : CHeap) (c : CAddr) (hf : f c = none) :
    incStrongH f (some c) = f := by
  simp [incStrongH, hf]

theorem incStrongH_alloc (f : CHeap) (c : CAddr) (cnt : Counter)
    (hf : f c = some cnt) :
    incStrongH f (some c) =
      fupdate f c (some ⟨cnt.strong_count + 1, cnt.weak_count⟩) := by
  simp [incStrongH, hf]

theorem incWeakH_null (f : CHeap) : incWeakH f none = f := rfl

theorem incWeakH_unalloc (f : CHeap) (c : CAddr) (hf : f c = none) :
    incWeakH f (some c) = f := by
  simp [incWeakH, hf]

theorem incWeakH_alloc (f : CHeap) (c : CAddr) (cnt : Counter)
    (hf : f c = some cnt) :
    incWeakH f (some c) =
      fupdate f c (some ⟨cnt.strong_count, cnt.weak_count + 1⟩) := by
  simp [incWeakH, hf]

/-- countsOK for a single-point heap update, split into the updated
address and the others. -/
theorem countsOK_fupdate (f : CHeap) (W S2 : List (Option Handle))
    (c0 : CAddr) (v : Option Counter)
    (hother : ∀ c cnt, c ≠ c0 → f c = some cnt →
      cnt.strong_count = S2.countP (hit c) ∧ cnt.weak_count = W.countP (hit c))
    (hat : ∀ cnt, v = some cnt →
      cnt.strong_count = S2.countP (hit c0) ∧
        cnt.weak_count = W.countP (hit c0)) :
    countsOK (fupdate f c0 v) S2 W := by
  intro c cnt hfc
  by_cases hcc : c = c0
  · subst hcc
    rw [fupdate_self] at hfc
    exact hat cnt hfc
  · rw [fupdate_other f c0 v c hcc] at hfc
    exact hother c cnt hcc hfc

/-- SharedPtr::Release preserves the invariant when the strong slot list
simultaneously drops exactly one census occurrence of the released
handle. -/
theorem sharedReleaseH_invOn (f : CHeap) (S W S2 : List (Option Handle))
    (n : CAddr) (hd : Handle) (hI : invOn f S W n)
    (hmem : ∀ h : Handle, some h ∈ S2 → some h ∈ S ∨ h = nullHandle)
    (hcnt : ∀ c, S2.countP (hit c) + (if hit c (some hd) then 1 else 0) =
      S.countP (hit c)) :
    invOn (sharedReleaseH f hd).1 S2 W n := by
  obtain ⟨hc, hrS, hrW, hfr⟩ := hI
  have hrS2 : refsOK f S2 := refsOK_of_mem f S S2 hrS hmem
  have hcnt_ne : ∀ c, hd.counter ≠ some c →
      S2.countP (hit c) = S.countP (hit c) := by
    intro c hne
    have h0 := hcnt c
    rw [if_neg (by rw [hit_some]; exact hne)] at h0
    omega
  cases hhd : hd.counter with
  | none =>
    rw [sharedReleaseH_null f hd hhd]
    show invOn f S2 W n
    refine ⟨?_, hrS2, hrW, hfr⟩
    intro c cnt hfc
    obtain ⟨h1, h2⟩ := hc c cnt hfc
    exact ⟨by rw [h1, hcnt_ne c (by rw [hhd]; intro h; cases h)], h2⟩
  | some c0 =>
    have hhit0 : hit c0 (some hd) = true := (hit_some c0 hd).mpr hhd
    have hcnt0 : S2.countP (hit c0) + 1 = S.countP (hit c0) := by
      have h0 := hcnt c0
      rw [if_pos hhit0] at h0
      exact h0
    have hne_of : ∀ c, c ≠ c0 → hd.counter ≠ some c := by
      intro c hcc heq
      rw [hhd] at heq
      injection heq with heq2
      exact hcc heq2.symm
    cases hfc0 : f c0 with
    | none =>
      rw [sharedReleaseH_unalloc f hd c0 hhd hfc0]
      show invOn f S2 W n
      refine ⟨?_, hrS2, hrW, hfr⟩
      intro c cnt hfc
      obtain ⟨h1, h2⟩ := hc c cnt hfc
      have hcc : c ≠ c0 := by
        intro heq
        rw [heq, hfc0] at hfc
        cases hfc
      exact ⟨by rw [h1, hcnt_ne c (hne_of c hcc)], h2⟩
    | some cnt0 =>
      obtain ⟨hs0, hw0⟩ := hc c0 cnt0 hfc0
      have hdec : cnt0.strong_count - 1 = S2.countP (hit c0) := by omega
      have hother : ∀ c cnt, c ≠ c0 → f c = some cnt →
          cnt.strong_count = S2.countP (hit c) ∧
            cnt.weak_count = W.countP (hit c) := by
        intro c cnt hcc hfc
        obtain ⟨h1, h2⟩ := hc c cnt hfc
        exact ⟨by rw [h1, hcnt_ne c (hne_of c hcc)], h2⟩
      by_cases hz : cnt0.strong_count - 1 = 0
      · by_cases hwz : cnt0.weak_count = 0
        · rw [sharedReleaseH_last f hd c0 cnt0 hhd hfc0 hz hwz]
          show invOn (fupdate f c0 none) S2 W n
          refine ⟨countsOK_fupdate f W S2 c0 none hother
            (fun cnt h => by cases h), ?_, ?_,
            freshOK_fupdate f n c0 none hfr (Or.inr rfl)⟩
          · intro x hx
            refine ⟨(hrS2 x hx).1, ?_⟩
            intro c hcx
            by_cases hcc : c = c0
            · exfalso
              have hpos : 0 < S2.countP (hit c0) :=
                countP_pos_of_mem _ S2 (some x) hx
                  ((hit_some c0 x).mpr (hcc ▸ hcx))
              omega
            · rw [fupdate_other f c0 none c hcc]
              exact (hrS2 x hx).2 c hcx
          · intro x hx
            refine ⟨(hrW x hx).1, ?_⟩
            intro c hcx
            by_cases hcc : c = c0
            · exfalso
              have hpos : 0 < W.countP (hit c0) :=
                countP_pos_of_mem _ W (some x) hx
                  ((hit_some c0 x).mpr (hcc ▸ hcx))
              omega
            · rw [fupdate_other f c0 none c hcc]
              exact (hrW x hx).2 c hcx
        · rw [sharedReleaseH_lastStrong f hd c0 cnt0 hhd hfc0 hz hwz]
          show invOn (fupdate f c0 (some ⟨0, cnt0.weak_count⟩)) S2 W n
          refine ⟨countsOK_fupdate f W S2 c0 _ hother ?_,
            refsOK_mono f _ S2 hrS2 (fun c => isSome_fupdate_some f c0 _ c),
            refsOK_mono f _ W hrW (fun c => isSome_fupdate_some f c0 _ c),
            freshOK_fupdate f n c0 _ hfr (Or.inl (by rw [hfc0]; rfl))⟩
          intro cnt h
          injection h with h
          cases h
          refine ⟨?_, hw0⟩
          show (0 : Nat) = S2.countP (hit c0)
          omega
      · rw [sharedReleaseH_dec f hd c0 cnt0 hhd hfc0 hz]
        show invOn
          (fupdate f c0 (some ⟨cnt0.strong_count - 1, cnt0.weak_count⟩)) S2 W n
        refine ⟨countsOK_fupdate f W S2 c0 _ hother ?_,
          refsOK_mono f _ S2 hrS2 (fun c => isSome_fupdate_some f c0 _ c),
          refsOK_mono f _ W hrW (fun c => isSome_fupdate_some f c0 _ c),
          freshOK_fupdate f n c0 _ hfr (Or.inl (by rw [hfc0]; rfl))⟩
        intro cnt h
        injection h with h
        cases h
        refine ⟨?_, hw0⟩
        show cnt0.strong_count - 1 = S2.countP (hit c0)
        exact hdec

/-- WeakPtr::Release preserves the invariant when the weak slot list
simultaneously drops exactly one census occurrence of the released
handle. -/
theorem weakReleaseH_invOn (f : CHeap) (S W W2 : List (Option Handle))
    (n : CAddr) (hd : Handle) (hI : invOn f S W n)
    (hmem : ∀ h : Handle, some h ∈ W2 → some h ∈ W ∨ h = nullHandle)
    (hcnt : ∀ c, W2.countP (hit c) + (if hit c (some hd) then 1 else 0) =
      W.countP (hit c)) :
    invOn (weakReleaseH f hd).1 S W2 n := by
  obtain ⟨hc, hrS, hrW, hfr⟩ := hI
  have hrW2 : refsOK f W2 := refsOK_of_mem f W W2 hrW hmem
  have hcnt_ne : ∀ c, hd.counter ≠ some c →
      W2.countP (hit c) = W.countP (hit c) := by
    intro c hne
    have h0 := hcnt c
    rw [if_neg (by rw [hit_some]; exact hne)] at h0
    omega
  cases hhd : hd.counter with
  | none =>
    rw [weakReleaseH_null f hd hhd]
    show invOn f S W2 n
    refine ⟨?_, hrS, hrW2, hfr⟩
    intro c cnt hfc
    obtain ⟨h1, h2⟩ := hc c cnt hfc
    exact ⟨h1, by rw [h2, hcnt_ne c (by rw [hhd]; intro h; cases h)]⟩
  | some c0 =>
    have hhit0 : hit c0 (some hd) = true := (hit_some c0 hd).mpr hhd
    have hcnt0 : W2.countP (hit c0) + 1 = W.countP (hit c0) := by
      have h0 := hcnt c0
      rw [if_pos hhit0] at h0
      exact h0
    have hne_of : ∀ c, c ≠ c0 → hd.counter ≠ some c := by
      intro c hcc heq
      rw [hhd] at heq
      injection heq with heq2
      exact hcc heq2.symm
    cases hfc0 : f c0 with
    | none =>
      rw [weakReleaseH_unalloc f hd c0 hhd hfc0]
      show invOn f S W2 n
      refine ⟨?_, hrS, hrW2, hfr⟩
      intro c cnt hfc
      obtain ⟨h1, h2⟩ := hc c cnt hfc
      have hcc : c ≠ c0 := by
        intro heq
        rw [heq, hfc0] at hfc
        cases hfc
      exact ⟨h1, by rw [h2, hcnt_ne c (hne_of c hcc)]⟩
    | some cnt0 =>
      obtain ⟨hs0, hw0⟩ := hc c0 cnt0 hfc0
      have hdec : cnt0.weak_count - 1 = W2.countP (hit c0) := by omega
      have hcounts_at : ∀ c cnt, c ≠ c0 → f c = some cnt →
          cnt.strong_count = S.countP (hit c) ∧
            cnt.weak_count = W2.countP (hit c) := by
        intro c cnt hcc hfc
        obtain ⟨h1, h2⟩ := hc c cnt hfc
        exact ⟨h1, by rw [h2, hcnt_ne c (hne_of c hcc)]⟩
      by_cases hz : cnt0.weak_count - 1 = 0 ∧ cnt0.strong_count = 0
      · rw [weakReleaseH_last f hd c0 cnt0 hhd hfc0 hz.1 hz.2]
        show invOn (fupdate f c0 none) S W2 n
        refine ⟨countsOK_fupdate f W2 S c0 none hcounts_at
          (fun cnt h => by cases h), ?_, ?_,
          freshOK_fupdate f n c0 none hfr (Or.inr rfl)⟩
        · intro x hx
          refine ⟨(hrS x hx).1, ?_⟩
          intro c hcx
          by_cases hcc : c = c0
          · exfalso
            have hpos : 0 < S.countP (hit c0) :=
              countP_pos_of_mem _ S (some x) hx
                ((hit_some c0 x).mpr (hcc ▸ hcx))
            omega
          · rw [fupdate_other f c0 none c hcc]
            exact (hrS x hx).2 c hcx
        · intro x hx
          refine ⟨(hrW2 x hx).1, ?_⟩
          intro c hcx
          by_cases hcc : c = c0
          · exfalso
            have hpos : 0 < W2.countP (hit c0) :=
              countP_pos_of_mem _ W2 (some x) hx
                ((hit_some c0 x).mpr (hcc ▸ hcx))
            omega
          · rw [fupdate_other f c0 none c hcc]
            exact (hrW2 x hx).2 c hcx
      · rw [weakReleaseH_dec f hd c0 cnt0 hhd hfc0 hz]
        show invOn
          (fupdate f c0 (some ⟨cnt0.strong_count, cnt0.weak_count - 1⟩)) S W2 n
        refine ⟨countsOK_fupdate f W2 S c0 _ hcounts_at ?_,
          refsOK_mono f _ S hrS (fun c => isSome_fupdate_some f c0 _ c),
          refsOK_mono f _ W2 hrW2 (fun c => isSome_fupdate_some f c0 _ c),
          freshOK_fupdate f n c0 _ hfr (Or.inl (by rw [hfc0]; rfl))⟩
        intro cnt h
        injection h with h
        cases h
        refine ⟨hs0, ?_⟩
        show cnt0.weak_count - 1 = W2.countP (hit c0)
        exact hdec

/-- The strong-count increment preserves the invariant when the strong
slot list simultaneously gains one census occurrence of the handle, whose
control block (if any) is allocated. -/
theorem incStrongH_invOn (f : CHeap) (S W S2 : List (Option Handle))
    (n : CAddr) (h : Handle) (hI : invOn f S W n)
    (hmem : ∀ x : Handle, some x ∈ S2 → some x ∈ S ∨ x = h)
    (hcnt : ∀ c, S2.countP (hit c) =
      S.countP (hit c) + (if hit c (some h) then 1 else 0))
    (hok : h.ptr.isSome ↔ h.counter.isSome)
    (href : ∀ c, h.counter = some c → (f c).isSome) :
    invOn (incStrongH f h.counter) S2 W n := by
  obtain ⟨hc, hrS, hrW, hfr⟩ := hI
  have hcnt_ne : ∀ c, h.counter ≠ some c →
      S2.countP (hit c) = S.countP (hit c) := by
    intro c hne
    have h0 := hcnt c
    rw [if_neg (by rw [hit_some]; exact hne)] at h0
    omega
  cases hh : h.counter with
  | none =>
    rw [incStrongH_null]
    refine ⟨?_, ?_, hrW, hfr⟩
    · intro c cnt hfc
      obtain ⟨h1, h2⟩ := hc c cnt hfc
      exact ⟨by rw [h1, hcnt_ne c (by rw [hh]; intro hx; cases hx)], h2⟩
    · intro x hx
      rcases hmem x hx with hin | hxh
      · exact hrS x hin
      · subst hxh
        exact ⟨hok, fun c hcx => href c hcx⟩
  | some c0 =>
    have hsome := href c0 hh
    rw [Option.isSome_iff_exists] at hsome
    obtain ⟨cnt0, hfc0⟩ := hsome
    obtain ⟨hs0, hw0⟩ := hc c0 cnt0 hfc0
    rw [incStrongH_alloc f c0 cnt0 hfc0]
    have hhit0 : hit c0 (some h) = true := (hit_some c0 h).mpr hh
    refine ⟨countsOK_fupdate f W S2 c0 _ ?_ ?_, ?_,
      refsOK_mono f _ W hrW (fun c => isSome_fupdate_some f c0 _ c),
      freshOK_fupdate f n c0 _ hfr (Or.inl (by rw [hfc0]; rfl))⟩
    · intro c cnt hcc hfc
      obtain ⟨h1, h2⟩ := hc c cnt hfc
      have hne : h.counter ≠ some c := by
        rw [hh]
        intro heq
        injection heq with heq2
        exact hcc heq2.symm
      exact ⟨by rw [h1, hcnt_ne c hne], h2⟩
    · intro cnt heq
      injection heq with heq
      cases heq
      refine ⟨?_, hw0⟩
      show cnt0.strong_count + 1 = S2.countP (hit c0)
      rw [hcnt c0, if_pos hhit0, hs0]
    · intro x hx
      rcases hmem x hx with hin | hxh
      · exact refsOK_mono f _ S
          (fun y hy => hrS y hy) (fun c => isSome_fupdate_some f c0 _ c) x hin
      · subst hxh
        refine ⟨hok, fun c hcx => isSome_fupdate_some f c0 _ c (href c hcx)⟩

/-- The weak-count increment preserves the invariant when the weak slot
list simultaneously gains one census occurrence of the handle. -/
theorem incWeakH_invOn (f : CHeap) (S W W2 : List (Option Handle))
    (n : CAddr) (h : Handle) (hI : invOn f S W n)
    (hmem : ∀ x : Handle, some x ∈ W2 → some x ∈ W ∨ x = h)
    (hcnt : ∀ c, W2.countP (hit c) =
      W.countP (hit c) + (if hit c (some h) then 1 else 0))
    (hok : h.ptr.isSome ↔ h.counter.isSome)
    (href : ∀ c, h.counter = some c → (f c).isSome) :
    invOn (incWeakH f h.counter) S W2 n := by
  obtain ⟨hc, hrS, hrW, hfr⟩ := hI
  have hcnt_ne : ∀ c, h.counter ≠ some c →
      W2.countP (hit c) = W.countP (hit c) := by
    intro c hne
    have h0 := hcnt c
    rw [if_neg (by rw [hit_some]; exact hne)] at h0
    omega
  cases hh : h.counter with
  | none =>
    rw [incWeakH_null]
    refine ⟨?_, hrS, ?_, hfr⟩
    · intro c cnt hfc
      obtain ⟨h1, h2⟩ := hc c cnt hfc
      exact ⟨h1, by rw [h2, hcnt_ne c (by rw [hh]; intro hx; cases hx)]⟩
    · intro x hx
      rcases hmem x hx with hin | hxh
      · exact hrW x hin
      · subst hxh
        exact ⟨hok, fun c hcx => href c hcx⟩
  | some c0 =>
    have hsome := href c0 hh
    rw [Option.isSome_iff_exists] at hsome
    obtain ⟨cnt0, hfc0⟩ := hsome
    obtain ⟨hs0, hw0⟩ := hc c0 cnt0 hfc0
    rw [incWeakH_alloc f c0 cnt0 hfc0]
    have hhit0 : hit c0 (some h) = true := (hit_some c0 h).mpr hh
    refine ⟨countsOK_fupdate f W2 S c0 _ ?_ ?_,
      refsOK_mono f _ S hrS (fun c => isSome_fupdate_some f c0 _ c), ?_,
      freshOK_fupdate f n c0 _ hfr (Or.inl (by rw [hfc0]; rfl))⟩
    · intro c cnt hcc hfc
      obtain ⟨h1, h2⟩ := hc c cnt hfc
      have hne : h.counter ≠ some c := by
        rw [hh]
        intro heq
        injection heq with heq2
        exact hcc heq2.symm
      exact ⟨h1, by rw [h2, hcnt_ne c hne]⟩
    · intro cnt heq
      injection heq with heq
      cases heq
      refine ⟨hs0, ?_⟩
      show cnt0.weak_count + 1 = W2.countP (hit c0)
      rw [hcnt c0, if_pos hhit0, hw0]
    · intro x hx
      rcases hmem x hx with hin | hxh
      · exact refsOK_mono f _ W
          (fun y hy => hrW y hy) (fun c => isSome_fupdate_some f c0 _ c) x hin
      · subst hxh
        refine ⟨hok, fun c hcx => isSome_fupdate_some f c0 _ c (href c hcx)⟩

/-- `new Counter()` preserves the invariant when the strong slot list
simultaneously gains exactly one handle referencing the fresh block. -/
theorem alloc_invOn (f : CHeap) (S W S2 : List (Option Handle)) (n : CAddr)
    (a : OAddr) (hI : invOn f S W n)
    (hmem : ∀ x : Handle, some x ∈ S2 → some x ∈ S ∨ x = ⟨some a, some n⟩)
    (hcnt : ∀ c, S2.countP (hit c) =
      S.countP (hit c) + (if c = n then 1 else 0)) :
    invOn (fupdate f n (some Counter.init)) S2 W (n + 1) := by
  obtain ⟨hc, hrS, hrW, hfr⟩ := hI
  have hfn : f n = none := hfr n (Nat.le_refl n)
  have hSn : S.countP (hit n) = 0 := by
    apply countP_zero_of_not
    intro oh hmemS
    cases oh with
    | none => rfl
    | some x =>
      cases hhit : hit n (some x) with
      | false => rfl
      | true =>
        exfalso
        have hx := (hrS x hmemS).2 n ((hit_some n x).mp hhit)
        rw [hfn] at hx
        cases hx
  have hWn : W.countP (hit n) = 0 := by
    apply countP_zero_of_not
    intro oh hmemW
    cases oh with
    | none => rfl
    | some x =>
      cases hhit : hit n (some x) with
      | false => rfl
      | true =>
        exfalso
        have hx := (hrW x hmemW).2 n ((hit_some n x).mp hhit)
        rw [hfn] at hx
        cases hx
  refine ⟨countsOK_fupdate f W S2 n _ ?_ ?_, ?_,
    refsOK_mono f _ W hrW (fun c => isSome_fupdate_some f n _ c), ?_⟩
  · intro c cnt hcc hfc
    obtain ⟨h1, h2⟩ := hc c cnt hfc
    refine ⟨?_, h2⟩
    rw [hcnt c, if_neg hcc, h1, Nat.add_zero]
  · intro cnt heq
    injection heq with heq
    cases heq
    constructor
    · show (1 : Nat) = S2.countP (hit n)
      rw [hcnt n, if_pos rfl, hSn]
    · show (0 : Nat) = W.countP (hit n)
      rw [hWn]
  · intro x hx
    rcases hmem x hx with hin | hxh
    · exact refsOK_mono f _ S hrS (fun c => isSome_fupdate_some f n _ c) x hin
    · subst hxh
      refine ⟨by simp, ?_⟩
      intro c hcx
      injection hcx with hcx
      rw [← hcx, fupdate_self]
      rfl
  · intro c hcn
    have hcn2 : c ≠ n := Nat.ne_of_gt hcn
    rw [fupdate_other f n _ c hcn2]
    exact hfr c (Nat.le_of_succ_le hcn)

/-- Rearranging the strong slots without touching the census preserves the
invariant (the heap is untouched). -/
theorem reshuffleS_invOn (f : CHeap) (S W S2 : List (Option Handle))
    (n : CAddr) (hI : invOn f S W n)
    (hmem : ∀ x : Handle, some x ∈ S2 → some x ∈ S ∨ x = nullHandle)
    (hcnt : ∀ c, S2.countP (hit c) = S.countP (hit c)) :
    invOn f S2 W n := by
  obtain ⟨hc, hrS, hrW, hfr⟩ := hI
  refine ⟨?_, refsOK_of_mem f S S2 hrS hmem, hrW, hfr⟩
  intro c cnt hfc
  obtain ⟨h1, h2⟩ := hc c cnt hfc
  exact ⟨by rw [h1, hcnt c], h2⟩

/-- Rearranging the weak slots without touching the census preserves the
invariant. -/
theorem reshuffleW_invOn (f : CHeap) (S W W2 : List (Option Handle))
    (n : CAddr) (hI : invOn f S W n)
    (hmem : ∀ x : Handle, some x ∈ W2 → some x ∈ W ∨ x = nullHandle)
    (hcnt : ∀ c, W2.countP (hit c) = W.countP (hit c)) :
    invOn f S W2 n := by
  obtain ⟨hc, hrS, hrW, hfr⟩ := hI
  refine ⟨?_, hrS, refsOK_of_mem f W W2 hrW hmem, hfr⟩
  intro c cnt hfc
  obtain ⟨h1, h2⟩ := hc c cnt hfc
  exact ⟨h1, by rw [h2, hcnt c]⟩

theorem getS_eq (st : State) (i : Nat) (h : Handle) :
    getS st i = some h ↔ st.strongs.get? i = some (some h) := by
  unfold getS
  cases hq : st.strongs.get? i with
  | none => simp
  | some oh => simp

theorem getW_eq (st : State) (i : Nat) (h : Handle) :
    getW st i = some h ↔ st.weaks.get? i = some (some h) := by
  unfold getW
  cases hq : st.weaks.get? i with
  | none => simp
  | some oh => simp

theorem lt_length_of_get? {α : Type} (l : List α) (i : Nat) (a : α)
    (h : l.get? i = some a) : i < l.length := by
  rw [List.get?_eq_some] at h
  exact h.1

/-- Nulling out a slot drops exactly that slot's census contribution. -/
theorem countP_set_to_null (c : CAddr) (L : List (Option Handle)) (i : Nat)
    (a : Option Handle) (hq : L.get? i = some a) :
    (L.set i (some nullHandle)).countP (hit c) + (if hit c a then 1 else 0) =
      L.countP (hit c) := by
  have h1 := countP_set_add (hit c) L i a (some nullHandle) hq
  rw [hit_nullHandle] at h1
  simpa using h1

/-- Destroying a slot drops exactly that slot's census contribution. -/
theorem countP_set_to_none (c : CAddr) (L : List (Option Handle)) (i : Nat)
    (a : Option Handle) (hq : L.get? i = some a) :
    (L.set i none).countP (hit c) + (if hit c a then 1 else 0) =
      L.countP (hit c) := by
  have h1 := countP_set_add (hit c) L i a none hq
  rw [hit_none] at h1
  simpa using h1

/-- Overwriting a slot that holds a null handle adds the new element's
census contribution. -/
theorem countP_set_from_null (c : CAddr) (L : List (Option Handle)) (i : Nat)
    (x : Option Handle) (hlt : i < L.length) :
    ((L.set i (some nullHandle)).set i x).countP (hit c) =
      (L.set i (some nullHandle)).countP (hit c) +
        (if hit c x then 1 else 0) := by
  have hq : (L.set i (some nullHandle)).get? i = some (some nullHandle) :=
    List.get?_set_eq_of_lt (some nullHandle) hlt
  have h1 := countP_set_add (hit c) (L.set i (some nullHandle)) i
    (some nullHandle) x hq
  rw [hit_nullHandle] at h1
  simpa using h1

/-- Exchanging two slots leaves the census unchanged. -/
theorem countP_swap {α : Type} (p : α → Bool) (l : List α) (i j : Nat)
    (a b : α) (ha : l.get? i = some a) (hb : l.get? j = some b) :
    ((l.set i b).set j a).countP p = l.countP p := by
  by_cases hij : i = j
  · subst hij
    rw [ha] at hb
    injection hb with hb
    subst hb
    rw [List.set_set]
    have h1 := countP_set_add p l i a a ha
    omega
  · have h1 := countP_set_add p l i a b ha
    have hb2 : (l.set i b).get? j = some b := by
      rw [List.get?_set_ne b l hij]
      exact hb
    have h2 := countP_set_add p (l.set i b) j b a hb2
    omega

theorem mem_push_elim (L : List (Option Handle)) (y : Option Handle)
    (x : Handle) (hx : some x ∈ L ++ [y]) : some x ∈ L ∨ some x = y := by
  rcases List.mem_append.mp hx with hin | hone
  · exact Or.inl hin
  · exact Or.inr (List.mem_singleton.mp hone)

/-- A handle built with counter `some n` hits exactly the block n. -/
theorem hit_counter (c n : CAddr) (p : Option OAddr) :
    hit c (some ⟨p, some n⟩) = true ↔ c = n := by
  rw [hit_some]
  constructor
  · intro h
    injection h with h
    exact h.symm
  · intro h
    rw [h]

theorem stepSDefault_inv (st : State) (hI : Inv st) : Inv (stepSDefault st) := by
  show invOn st.heap (st.strongs ++ [some nullHandle]) st.weaks st.nextC
  refine reshuffleS_invOn st.heap st.strongs st.weaks _ st.nextC hI ?_ ?_
  · intro x hx
    rcases mem_push_elim st.strongs (some nullHandle) x hx with hin | heq
    · exact Or.inl hin
    · right
      injection heq
  · intro c
    rw [countP_push, hit_nullHandle]
    simp

theorem stepSFromRaw_inv (st : State) (o : Option OAddr) (hI : Inv st) :
    Inv (stepSFromRaw st o) := by
  cases o with
  | none =>
    show invOn st.heap (st.strongs ++ [some nullHandle]) st.weaks st.nextC
    refine reshuffleS_invOn st.heap st.strongs st.weaks _ st.nextC hI ?_ ?_
    · intro x hx
      rcases mem_push_elim st.strongs (some nullHandle) x hx with hin | heq
      · exact Or.inl hin
      · right
        injection heq
    · intro c
      rw [countP_push, hit_nullHandle]
      simp
  | some a =>
    show invOn (fupdate st.heap st.nextC (some Counter.init))
      (st.strongs ++ [some ⟨some a, some st.nextC⟩]) st.weaks (st.nextC + 1)
    refine alloc_invOn st.heap st.strongs st.weaks _ st.nextC a hI ?_ ?_
    · intro x hx
      rcases mem_push_elim st.strongs _ x hx with hin | heq
      · exact Or.inl hin
      · right
        injection heq
    · intro c
      rw [countP_push]
      by_cases hcn : c = st.nextC
      · rw [if_pos ((hit_counter c st.nextC (some a)).mpr hcn), if_pos hcn]
      · rw [if_neg (fun hh => hcn ((hit_counter c st.nextC (some a)).mp hh)),
          if_neg hcn]

theorem stepSCopy_inv (st : State) (i : Nat) (hI : Inv st) :
    Inv (stepSCopy st i) := by
  cases hget : getS st i with
  | none =>
    have heq : stepSCopy st i = st := by
      unfold stepSCopy
      rw [hget]
    rw [heq]
    exact hI
  | some h =>
    have heq : stepSCopy st i = pushS (st.incS h.counter) h := by
      unfold stepSCopy
      rw [hget]
    rw [heq]
    have hq := (getS_eq st i h).mp hget
    have hm : some h ∈ st.strongs := List.get?_mem hq
    obtain ⟨hok, href⟩ := hI.2.1 h hm
    show invOn (incStrongH st.heap h.counter) (st.strongs ++ [some h])
      st.weaks st.nextC
    refine incStrongH_invOn st.heap st.strongs st.weaks _ st.nextC h hI ?_
      (fun c => countP_push _ _ _) hok href
    intro x hx
    rcases mem_push_elim st.strongs (some h) x hx with hin | heq2
    · exact Or.inl hin
    · right
      injection heq2

theorem stepSMove_inv (st : State) (i : Nat) (hI : Inv st) :
    Inv (stepSMove st i) := by
  cases hget : getS st i with
  | none =>
    have heq : stepSMove st i = st := by
      unfold stepSMove
      rw [hget]
    rw [heq]
    exact hI
  | some h =>
    have heq : stepSMove st i = pushS (setS st i (some nullHandle)) h := by
      unfold stepSMove
      rw [hget]
    rw [heq]
    have hq := (getS_eq st i h).mp hget
    have hm : some h ∈ st.strongs := List.get?_mem hq
    show invOn st.heap (st.strongs.set i (some nullHandle) ++ [some h])
      st.weaks st.nextC
    refine reshuffleS_invOn st.heap st.strongs st.weaks _ st.nextC hI ?_ ?_
    · intro x hx
      rcases mem_push_elim _ (some h) x hx with hin | heq2
      · rcases List.mem_or_eq_of_mem_set hin with hin2 | heq3
        · exact Or.inl hin2
        · right
          injection heq3
      · left
        injection heq2 with heq2
        rw [heq2]
        exact hm
    · intro c
      rw [countP_push]
      exact countP_set_to_null c st.strongs i (some h) hq

theorem stepSFromWeak_inv (st : State) (i : Nat) (hI : Inv st) :
    Inv (stepSFromWeak st i) := by
  cases hget : getW st i with
  | none =>
    have heq : stepSFromWeak st i = st := by
      unfold stepSFromWeak
      rw [hget]
    rw [heq]
    exact hI
  | some w =>
    have hbody : stepSFromWeak st i =
        if st.Expired w then st
        else pushS (st.incS w.counter) ⟨w.ptr, w.counter⟩ := by
      unfold stepSFromWeak
      rw [hget]
    rw [hbody]
    cases hexp : st.Expired w with
    | true =>
      rw [if_pos rfl]
      exact hI
    | false =>
      rw [if_neg Bool.false_ne_true]
      have hq := (getW_eq st i w).mp hget
      have hm : some w ∈ st.weaks := List.get?_mem hq
      obtain ⟨hok, href⟩ := hI.2.2.1 w hm
      show invOn (incStrongH st.heap w.counter)
        (st.strongs ++ [some ⟨w.ptr, w.counter⟩]) st.weaks st.nextC
      refine incStrongH_invOn st.heap st.strongs st.weaks _ st.nextC
        ⟨w.ptr, w.counter⟩ hI ?_ (fun c => countP_push _ _ _) hok href
      intro x hx
      rcases mem_push_elim st.strongs _ x hx with hin | heq2
      · exact Or.inl hin
      · right
        injection heq2

theorem stepSAssignCopy_inv (st : State) (d s : Nat) (hI : Inv st) :
    Inv (stepSAssignCopy st d s) := by
  by_cases hds : d = s
  · have heq : stepSAssignCopy st d s = st := by
      unfold stepSAssignCopy
      rw [if_pos hds]
    rw [heq]
    exact hI
  · cases hgd : getS st d with
    | none =>
      cases hgs : getS st s with
      | none =>
        have heq : stepSAssignCopy st d s = st := by
          unfold stepSAssignCopy
          rw [if_neg hds, hgd, hgs]
        rw [heq]
        exact hI
      | some hs =>
        have heq : stepSAssignCopy st d s = st := by
          unfold stepSAssignCopy
          rw [if_neg hds, hgd, hgs]
        rw [heq]
        exact hI
    | some hd =>
      cases hgs : getS st s with
      | none =>
        have heq : stepSAssignCopy st d s = st := by
          unfold stepSAssignCopy
          rw [if_neg hds, hgd, hgs]
        rw [heq]
        exact hI
      | some hs =>
        have heq : stepSAssignCopy st d s =
            setS ((st.sRel hd).incS hs.counter) d (some hs) := by
          unfold stepSAssignCopy
          rw [if_neg hds, hgd, hgs]
        rw [heq]
        have hqd := (getS_eq st d hd).mp hgd
        have hqs := (getS_eq st s hs).mp hgs
        have hltd := lt_length_of_get? st.strongs d (some hd) hqd
        have hmid : invOn (sharedReleaseH st.heap hd).1
            (st.strongs.set d (some nullHandle)) st.weaks st.nextC := by
          refine sharedReleaseH_invOn st.heap st.strongs st.weaks _
            st.nextC hd hI ?_ ?_
          · intro x hx
            rcases List.mem_or_eq_of_mem_set hx with hin | heq2
            · exact Or.inl hin
            · right
              injection heq2
          · intro c
            exact countP_set_to_null c st.strongs d (some hd) hqd
        have hqs2 : (st.strongs.set d (some nullHandle)).get? s =
            some (some hs) := by
          rw [List.get?_set_ne (some nullHandle) st.strongs hds]
          exact hqs
        have hms : some hs ∈ st.strongs.set d (some nullHandle) :=
          List.get?_mem hqs2
        obtain ⟨hok, href⟩ := hmid.2.1 hs hms
        show invOn (incStrongH (sharedReleaseH st.heap hd).1 hs.counter)
          (st.strongs.set d (some hs)) st.weaks st.nextC
        rw [← List.set_set (some nullHandle) (some hs) st.strongs d]
        refine incStrongH_invOn (sharedReleaseH st.heap hd).1
          (st.strongs.set d (some nullHandle)) st.weaks _ st.nextC hs hmid
          ?_ ?_ hok href
        · intro x hx
          rcases List.mem_or_eq_of_mem_set hx with hin | heq2
          · exact Or.inl hin
          · right
            injection heq2
        · intro c
          exact countP_set_from_null c st.strongs d (some hs) hltd

theorem stepSAssignMove_inv (st : State) (d s : Nat) (hI : Inv st) :
    Inv (stepSAssignMove st d s) := by
  by_cases hds : d = s
  · have heq : stepSAssignMove st d s = st := by
      unfold stepSAssignMove
      rw [if_pos hds]
    rw [heq]
    exact hI
  · cases hgd : getS st d with
    | none =>
      cases hgs : getS st s with
      | none =>
        have heq : stepSAssignMove st d s = st := by
          unfold stepSAssignMove
          rw [if_neg hds, hgd, hgs]
        rw [heq]
        exact hI
      | some hs =>
        have heq : stepSAssignMove st d s = st := by
          unfold stepSAssignMove
          rw [if_neg hds, hgd, hgs]
        rw [heq]
        exact hI
    | some hd =>
      cases hgs : getS st s with
      | none =>
        have heq : stepSAssignMove st d s = st := by
          unfold stepSAssignMove
          rw [if_neg hds, hgd, hgs]
        rw [heq]
        exact hI
      | some hs =>
        have heq : stepSAssignMove st d s =
            setS (setS (st.sRel hd) d (some hs)) s (some nullHandle) := by
          unfold stepSAssignMove
          rw [if_neg hds, hgd, hgs]
        rw [heq]
        have hqd := (getS_eq st d hd).mp hgd
        have hqs := (getS_eq st s hs).mp hgs
        show invOn (sharedReleaseH st.heap hd).1
          ((st.strongs.set d (some hs)).set s (some nullHandle))
          st.weaks st.nextC
        refine sharedReleaseH_invOn st.heap st.strongs st.weaks _
          st.nextC hd hI ?_ ?_
        · intro x hx
          rcases List.mem_or_eq_of_mem_set hx with hin | heq2
          · rcases List.mem_or_eq_of_mem_set hin with hin2 | heq3
            · exact Or.inl hin2
            · left
              injection heq3 with heq3
              rw [heq3]
              exact List.get?_mem hqs
          · right
            injection heq2
        · intro c
          have h1 := countP_set_add (hit c) st.strongs d (some hd)
            (some hs) hqd
          have hqs2 : (st.strongs.set d (some hs)).get? s =
              some (some hs) := by
            rw [List.get?_set_ne (some hs) st.strongs hds]
            exact hqs
          have h2 := countP_set_to_null c (st.strongs.set d (some hs)) s
            (some hs) hqs2
          omega

theorem stepSAssignWeak_inv (st : State) (d w : Nat) (hI : Inv st) :
    Inv (stepSAssignWeak st d w) := by
  cases hgd : getS st d with
  | none =>
    cases hgw : getW st w with
    | none =>
      have heq : stepSAssignWeak st d w = st := by
        unfold stepSAssignWeak
        rw [hgd, hgw]
      rw [heq]
      exact hI
    | some hw =>
      have heq : stepSAssignWeak st d w = st := by
        unfold stepSAssignWeak
        rw [hgd, hgw]
      rw [heq]
      exact hI
  | some hd =>
    cases hgw : getW st w with
    | none =>
      have heq : stepSAssignWeak st d w = st := by
        unfold stepSAssignWeak
        rw [hgd, hgw]
      rw [heq]
      exact hI
    | some hw =>
      have hbody : stepSAssignWeak st d w =
          if st.Expired hw then st
          else setS ((st.sRel hd).incS hw.counter) d
            (some ⟨hw.ptr, hw.counter⟩) := by
        unfold stepSAssignWeak
        rw [hgd, hgw]
      rw [hbody]
      cases hexp : st.Expired hw with
      | true =>
        rw [if_pos rfl]
        exact hI
      | false =>
        rw [if_neg Bool.false_ne_true]
        have hqd := (getS_eq st d hd).mp hgd
        have hqw := (getW_eq st w hw).mp hgw
        have hltd := lt_length_of_get? st.strongs d (some hd) hqd
        have hmid : invOn (sharedReleaseH st.heap hd).1
            (st.strongs.set d (some nullHandle)) st.weaks st.nextC := by
          refine sharedReleaseH_invOn st.heap st.strongs st.weaks _
            st.nextC hd hI ?_ ?_
          · intro x hx
            rcases List.mem_or_eq_of_mem_set hx with hin | heq2
            · exact Or.inl hin
            · right
              injection heq2
          · intro c
            exact countP_set_to_null c st.strongs d (some hd) hqd
        have hmw : some hw ∈ st.weaks := List.get?_mem hqw
        obtain ⟨hok, href⟩ := hmid.2.2.1 hw hmw
        show invOn (incStrongH (sharedReleaseH st.heap hd).1 hw.counter)
          (st.strongs.set d (some ⟨hw.ptr, hw.counter⟩)) st.weaks st.nextC
        rw [← List.set_set (some nullHandle) (some ⟨hw.ptr, hw.counter⟩)
          st.strongs d]
        refine incStrongH_invOn (sharedReleaseH st.heap hd).1
          (st.strongs.set d (some nullHandle)) st.weaks _ st.nextC
          ⟨hw.ptr, hw.counter⟩ hmid ?_ ?_ hok href
        · intro x hx
          rcases List.mem_or_eq_of_mem_set hx with hin | heq2
          · exact Or.inl hin
          · right
            injection heq2
        · intro c
          exact countP_set_from_null c st.strongs d
            (some ⟨hw.ptr, hw.counter⟩) hltd

theorem stepSReset_inv (st : State) (i : Nat) (o : Option OAddr)
    (hI : Inv st) : Inv (stepSReset st i o) := by
  cases hget : getS st i with
  | none =>
    have heq : stepSReset st i o = st := by
      unfold stepSReset
      rw [hget]
    rw [heq]
    exact hI
  | some h =>
    have hbody : stepSReset st i o =
        if o = h.ptr then st
        else
          match o with
          | some a => setS (st.sRel h).alloc i (some ⟨some a, some st.nextC⟩)
          | none => setS (st.sRel h) i (some nullHandle) := by
      unfold stepSReset
      rw [hget]
    rw [hbody]
    by_cases ho : o = h.ptr
    · rw [if_pos ho]
      exact hI
    · rw [if_neg ho]
      have hqi := (getS_eq st i h).mp hget
      have hlti := lt_length_of_get? st.strongs i (some h) hqi
      have hmid : invOn (sharedReleaseH st.heap h).1
          (st.strongs.set i (some nullHandle)) st.weaks st.nextC := by
        refine sharedReleaseH_invOn st.heap st.strongs st.weaks _
          st.nextC h hI ?_ ?_
        · intro x hx
          rcases List.mem_or_eq_of_mem_set hx with hin | heq2
          · exact Or.inl hin
          · right
            injection heq2
        · intro c
          exact countP_set_to_null c st.strongs i (some h) hqi
      cases o with
      | none => exact hmid
      | some a =>
        show invOn
          (fupdate (sharedReleaseH st.heap h).1 st.nextC (some Counter.init))
          (st.strongs.set i (some ⟨some a, some st.nextC⟩)) st.weaks
          (st.nextC + 1)
        rw [← List.set_set (some nullHandle) (some ⟨some a, some st.nextC⟩)
          st.strongs i]
        refine alloc_invOn (sharedReleaseH st.heap h).1
          (st.strongs.set i (some nullHandle)) st.weaks _ st.nextC a hmid
          ?_ ?_
        · intro x hx
          rcases List.mem_or_eq_of_mem_set hx with hin | heq2
          · exact Or.inl hin
          · right
            injection heq2
        · intro c
          rw [countP_set_from_null c st.strongs i
            (some ⟨some a, some st.nextC⟩) hlti]
          by_cases hcn : c = st.nextC
          · rw [if_pos ((hit_counter c st.nextC (some a)).mpr hcn),
              if_pos hcn]
          · rw [if_neg (fun hh => hcn ((hit_counter c st.nextC (some a)).mp hh)),
              if_neg hcn]

theorem stepSSwap_inv (st : State) (i j : Nat) (hI : Inv st) :
    Inv (stepSSwap st i j) := by
  cases hgi : getS st i with
  | none =>
    cases hgj : getS st j with
    | none =>
      have heq : stepSSwap st i j = st := by
        unfold stepSSwap
        rw [hgi, hgj]
      rw [heq]
      exact hI
    | some hb =>
      have heq : stepSSwap st i j = st := by
        unfold stepSSwap
        rw [hgi, hgj]
      rw [heq]
      exact hI
  | some ha =>
    cases hgj : getS st j with
    | none =>
      have heq : stepSSwap st i j = st := by
        unfold stepSSwap
        rw [hgi, hgj]
      rw [heq]
      exact hI
    | some hb =>
      have heq : stepSSwap st i j =
          setS (setS st i (some hb)) j (some ha) := by
        unfold stepSSwap
        rw [hgi, hgj]
      rw [heq]
      have hqi := (getS_eq st i ha).mp hgi
      have hqj := (getS_eq st j hb).mp hgj
      show invOn st.heap ((st.strongs.set i (some hb)).set j (some ha))
        st.weaks st.nextC
      refine reshuffleS_invOn st.heap st.strongs st.weaks _ st.nextC hI ?_ ?_
      · intro x hx
        rcases List.mem_or_eq_of_mem_set hx with hin | heq2
        · rcases List.mem_or_eq_of_mem_set hin with hin2 | heq3
          · exact Or.inl hin2
          · left
            injection heq3 with heq3
            rw [heq3]
            exact List.get?_mem hqj
        · left
          injection heq2 with heq2
          rw [heq2]
          exact List.get?_mem hqi
      · intro c
        exact countP_swap (hit c) st.strongs i j (some ha) (some hb) hqi hqj

theorem stepSDestroy_inv (st : State) (i : Nat) (hI : Inv st) :
    Inv (stepSDestroy st i) := by
  cases hget : getS st i with
  | none =>
    have heq : stepSDestroy st i = st := by
      unfold stepSDestroy
      rw [hget]
    rw [heq]
    exact hI
  | some h =>
    have heq : stepSDestroy st i = setS (st.sRel h) i none := by
      unfold stepSDestroy
      rw [hget]
    rw [heq]
    have hqi := (getS_eq st i h).mp hget
    show invOn (sharedReleaseH st.heap h).1 (st.strongs.set i none)
      st.weaks st.nextC
    refine sharedReleaseH_invOn st.heap st.strongs st.weaks _ st.nextC h
      hI ?_ ?_
    · intro x hx
      rcases List.mem_or_eq_of_mem_set hx with hin | heq2
      · exact Or.inl hin
      · cases heq2
    · intro c
      exact countP_set_to_none c st.strongs i (some h) hqi

theorem stepWDefault_inv (st : State) (hI : Inv st) : Inv (stepWDefault st) := by
  show invOn st.heap st.strongs (st.weaks ++ [some nullHandle]) st.nextC
  refine reshuffleW_invOn st.heap st.strongs st.weaks _ st.nextC hI ?_ ?_
  · intro x hx
    rcases mem_push_elim st.weaks (some nullHandle) x hx with hin | heq
    · exact Or.inl hin
    · right
      injection heq
  · intro c
    rw [countP_push, hit_nullHandle]
    simp

theorem stepWFromShared_inv (st : State) (i : Nat) (hI : Inv st) :
    Inv (stepWFromShared st i) := by
  cases hget : getS st i with
  | none =>
    have heq : stepWFromShared st i = st := by
      unfold stepWFromShared
      rw [hget]
    rw [heq]
    exact hI
  | some h =>
    have heq : stepWFromShared st i = pushW (st.incW h.counter) h := by
      unfold stepWFromShared
      rw [hget]
    rw [heq]
    have hq := (getS_eq st i h).mp hget
    have hm : some h ∈ st.strongs := List.get?_mem hq
    obtain ⟨hok, href⟩ := hI.2.1 h hm
    show invOn (incWeakH st.heap h.counter) st.strongs
      (st.weaks ++ [some h]) st.nextC
    refine incWeakH_invOn st.heap st.strongs st.weaks _ st.nextC h hI ?_
      (fun c => countP_push _ _ _) hok href
    intro x hx
    rcases mem_push_elim st.weaks (some h) x hx with hin | heq2
    · exact Or.inl hin
    · right
      injection heq2

theorem stepWCopy_inv (st : State) (i : Nat) (hI : Inv st) :
    Inv (stepWCopy st i) := by
  cases hget : getW st i with
  | none =>
    have heq : stepWCopy st i = st := by
      unfold stepWCopy
      rw [hget]
    rw [heq]
    exact hI
  | some h =>
    have heq : stepWCopy st i = pushW (st.incW h.counter) h := by
      unfold stepWCopy
      rw [hget]
    rw [heq]
    have hq := (getW_eq st i h).mp hget
    have hm : some h ∈ st.weaks := List.get?_mem hq
    obtain ⟨hok, href⟩ := hI.2.2.1 h hm
    show invOn (incWeakH st.heap h.counter) st.strongs
      (st.weaks ++ [some h]) st.nextC
    refine incWeakH_invOn st.heap st.strongs st.weaks _ st.nextC h hI ?_
      (fun c => countP_push _ _ _) hok href
    intro x hx
    rcases mem_push_elim st.weaks (some h) x hx with hin | heq2
    · exact Or.inl hin
    · right
      injection heq2

theorem stepWMove_inv (st : State) (i : Nat) (hI : Inv st) :
    Inv (stepWMove st i) := by
  cases hget : getW st i with
  | none =>
    have heq : stepWMove st i = st := by
      unfold stepWMove
      rw [hget]
    rw [heq]
    exact hI
  | some h =>
    have heq : stepWMove st i = pushW (setW st i (some nullHandle)) h := by
      unfold stepWMove
      rw [hget]
    rw [heq]
    have hq := (getW_eq st i h).mp hget
    have hm : some h ∈ st.weaks := List.get?_mem hq
    show invOn st.heap st.strongs
      (st.weaks.set i (some nullHandle) ++ [some h]) st.nextC
    refine reshuffleW_invOn st.heap st.strongs st.weaks _ st.nextC hI ?_ ?_
    · intro x hx
      rcases mem_push_elim _ (some h) x hx with hin | heq2
      · rcases List.mem_or_eq_of_mem_set hin with hin2 | heq3
        · exact Or.inl hin2
        · right
          injection heq3
      · left
        injection heq2 with heq2
        rw [heq2]
        exact hm
    · intro c
      rw [countP_push]
      exact countP_set_to_null c st.weaks i (some h) hq

theorem stepWAssignShared_inv (st : State) (d s : Nat) (hI : Inv st) :
    Inv (stepWAssignShared st d s) := by
  cases hgd : getW st d with
  | none =>
    cases hgs : getS st s with
    | none =>
      have heq : stepWAssignShared st d s = st := by
        unfold stepWAssignShared
        rw [hgd, hgs]
      rw [heq]
      exact hI
    | some hs =>
      have heq : stepWAssignShared st d s = st := by
        unfold stepWAssignShared
        rw [hgd, hgs]
      rw [heq]
      exact hI
  | some hd =>
    cases hgs : getS st s with
    | none =>
      have heq : stepWAssignShared st d s = st := by
        unfold stepWAssignShared
        rw [hgd, hgs]
      rw [heq]
      exact hI
    | some hs =>
      have heq : stepWAssignShared st d s =
          setW ((st.wRel hd).incW hs.counter) d (some hs) := by
        unfold stepWAssignShared
        rw [hgd, hgs]
      rw [heq]
      have hqd := (getW_eq st d hd).mp hgd
      have hqs := (getS_eq st s hs).mp hgs
      have hltd := lt_length_of_get? st.weaks d (some hd) hqd
      have hmid : invOn (weakReleaseH st.heap hd).1 st.strongs
          (st.weaks.set d (some nullHandle)) st.nextC := by
        refine weakReleaseH_invOn st.heap st.strongs st.weaks _
          st.nextC hd hI ?_ ?_
        · intro x hx
          rcases List.mem_or_eq_of_mem_set hx with hin | heq2
          · exact Or.inl hin
          · right
            injection heq2
        · intro c
          exact countP_set_to_null c st.weaks d (some hd) hqd
      have hms : some hs ∈ st.strongs := List.get?_mem hqs
      obtain ⟨hok, href⟩ := hmid.2.1 hs hms
      show invOn (incWeakH (weakReleaseH st.heap hd).1 hs.counter)
        st.strongs (st.weaks.set d (some hs)) st.nextC
      rw [← List.set_set (some nullHandle) (some hs) st.weaks d]
      refine incWeakH_invOn (weakReleaseH st.heap hd).1 st.strongs
        (st.weaks.set d (some nullHandle)) _ st.nextC hs hmid ?_ ?_ hok href
      · intro x hx
        rcases List.mem_or_eq_of_mem_set hx with hin | heq2
        · exact Or.inl hin
        · right
          injection heq2
      · intro c
        exact countP_set_from_null c st.weaks d (some hs) hltd

theorem stepWAssignCopy_inv (st : State) (d s : Nat) (hI : Inv st) :
    Inv (stepWAssignCopy st d s) := by
  by_cases hds : d = s
  · have heq : stepWAssignCopy st d s = st := by
      unfold stepWAssignCopy
      rw [if_pos hds]
    rw [heq]
    exact hI
  · cases hgd : getW st d with
    | none =>
      cases hgs : getW st s with
      | none =>
        have heq : stepWAssignCopy st d s = st := by
          unfold stepWAssignCopy
          rw [if_neg hds, hgd, hgs]
        rw [heq]
        exact hI
      | some hs =>
        have heq : stepWAssignCopy st d s = st := by
          unfold stepWAssignCopy
          rw [if_neg hds, hgd, hgs]
        rw [heq]
        exact hI
    | some hd =>
      cases hgs : getW st s with
      | none =>
        have heq : stepWAssignCopy st d s = st := by
          unfold stepWAssignCopy
          rw [if_neg hds, hgd, hgs]
        rw [heq]
        exact hI
      | some hs =>
        have heq : stepWAssignCopy st d s =
            setW ((st.wRel hd).incW hs.counter) d (some hs) := by
          unfold stepWAssignCopy
          rw [if_neg hds, hgd, hgs]
        rw [heq]
        have hqd := (getW_eq st d hd).mp hgd
        have hqs := (getW_eq st s hs).mp hgs
        have hltd := lt_length_of_get? st.weaks d (some hd) hqd
        have hmid : invOn (weakReleaseH st.heap hd).1 st.strongs
            (st.weaks.set d (some nullHandle)) st.nextC := by
          refine weakReleaseH_invOn st.heap st.strongs st.weaks _
            st.nextC hd hI ?_ ?_
          · intro x hx
            rcases List.mem_or_eq_of_mem_set hx with hin | heq2
            · exact Or.inl hin
            · right
              injection heq2
          · intro c
            exact countP_set_to_null c st.weaks d (some hd) hqd
        have hqs2 : (st.weaks.set d (some nullHandle)).get? s =
            some (some hs) := by
          rw [List.get?_set_ne (some nullHandle) st.weaks hds]
          exact hqs
        have hms : some hs ∈ st.weaks.set d (some nullHandle) :=
          List.get?_mem hqs2
        obtain ⟨hok, href⟩ := hmid.2.2.1 hs hms
        show invOn (incWeakH (weakReleaseH st.heap hd).1 hs.counter)
          st.strongs (st.weaks.set d (some hs)) st.nextC
        rw [← List.set_set (some nullHandle) (some hs) st.weaks d]
        refine incWeakH_invOn (weakReleaseH st.heap hd).1 st.strongs
          (st.weaks.set d (some nullHandle)) _ st.nextC hs hmid ?_ ?_
          hok href
        · intro x hx
          rcases List.mem_or_eq_of_mem_set hx with hin | heq2
          · exact Or.inl hin
          · right
            injection heq2
        · intro c
          exact countP_set_from_null c st.weaks d (some hs) hltd

theorem stepWAssignMove_inv (st : State) (d s : Nat) (hI : Inv st) :
    Inv (stepWAssignMove st d s) := by
  by_cases hds : d = s
  · have heq : stepWAssignMove st d s = st := by
      unfold stepWAssignMove
      rw [if_pos hds]
    rw [heq]
    exact hI
  · cases hgd : getW st d with
    | none =>
      cases hgs : getW st s with
      | none =>
        have heq : stepWAssignMove st d s = st := by
          unfold stepWAssignMove
          rw [if_neg hds, hgd, hgs]
        rw [heq]
        exact hI
      | some hs =>
        have heq : stepWAssignMove st d s = st := by
          unfold stepWAssignMove
          rw [if_neg hds, hgd, hgs]
        rw [heq]
        exact hI
    | some hd =>
      cases hgs : getW st s with
      | none =>
        have heq : stepWAssignMove st d s = st := by
          unfold stepWAssignMove
          rw [if_neg hds, hgd, hgs]
        rw [heq]
        exact hI
      | some hs =>
        have heq : stepWAssignMove st d s =
            setW (setW (st.wRel hd) d (some hs)) s (some nullHandle) := by
          unfold stepWAssignMove
          rw [if_neg hds, hgd, hgs]
        rw [heq]
        have hqd := (getW_eq st d hd).mp hgd
        have hqs := (getW_eq st s hs).mp hgs
        show invOn (weakReleaseH st.heap hd).1 st.strongs
          ((st.weaks.set d (some hs)).set s (some nullHandle)) st.nextC
        refine weakReleaseH_invOn st.heap st.strongs st.weaks _
          st.nextC hd hI ?_ ?_
        · intro x hx
          rcases List.mem_or_eq_of_mem_set hx with hin | heq2
          · rcases List.mem_or_eq_of_mem_set hin with hin2 | heq3
            · exact Or.inl hin2
            · left
              injection heq3 with heq3
              rw [heq3]
              exact List.get?_mem hqs
          · right
            injection heq2
        · intro c
          have h1 := countP_set_add (hit c) st.weaks d (some hd)
            (some hs) hqd
          have hqs2 : (st.weaks.set d (some hs)).get? s =
              some (some hs) := by
            rw [List.get?_set_ne (some hs) st.weaks hds]
            exact hqs
          have h2 := countP_set_to_null c (st.weaks.set d (some hs)) s
            (some hs) hqs2
          omega

theorem stepWReset_inv (st : State) (i : Nat) (hI : Inv st) :
    Inv (stepWReset st i) := by
  cases hget : getW st i with
  | none =>
    have heq : stepWReset st i = st := by
      unfold stepWReset
      rw [hget]
    rw [heq]
    exact hI
  | some h =>
    have heq : stepWReset st i = setW (st.wRel h) i (some nullHandle) := by
      unfold stepWReset
      rw [hget]
    rw [heq]
    have hqi := (getW_eq st i h).mp hget
    show invOn (weakReleaseH st.heap h).1 st.strongs
      (st.weaks.set i (some nullHandle)) st.nextC
    refine weakReleaseH_invOn st.heap st.strongs st.weaks _ st.nextC h
      hI ?_ ?_
    · intro x hx
      rcases List.mem_or_eq_of_mem_set hx with hin | heq2
      · exact Or.inl hin
      · right
        injection heq2
    · intro c
      exact countP_set_to_null c st.weaks i (some h) hqi

theorem stepWSwap_inv (st : State) (i j : Nat) (hI : Inv st) :
    Inv (stepWSwap st i j) := by
  cases hgi : getW st i with
  | none =>
    cases hgj : getW st j with
    | none =>
      have heq : stepWSwap st i j = st := by
        unfold stepWSwap
        rw [hgi, hgj]
      rw [heq]
      exact hI
    | some hb =>
      have heq : stepWSwap st i j = st := by
        unfold stepWSwap
        rw [hgi, hgj]
      rw [heq]
      exact hI
  | some ha =>
    cases hgj : getW st j with
    | none =>
      have heq : stepWSwap st i j = st := by
        unfold stepWSwap
        rw [hgi, hgj]
      rw [heq]
      exact hI
    | some hb =>
      have heq : stepWSwap st i j =
          setW (setW st i (some hb)) j (some ha) := by
        unfold stepWSwap
        rw [hgi, hgj]
      rw [heq]
      have hqi := (getW_eq st i ha).mp hgi
      have hqj := (getW_eq st j hb).mp hgj
      show invOn st.heap st.strongs
        ((st.weaks.set i (some hb)).set j (some ha)) st.nextC
      refine reshuffleW_invOn st.heap st.strongs st.weaks _ st.nextC hI ?_ ?_
      · intro x hx
        rcases List.mem_or_eq_of_mem_set hx with hin | heq2
        · rcases List.mem_or_eq_of_mem_set hin with hin2 | heq3
          · exact Or.inl hin2
          · left
            injection heq3 with heq3
            rw [heq3]
            exact List.get?_mem hqj
        · left
          injection heq2 with heq2
          rw [heq2]
          exact List.get?_mem hqi
      · intro c
        exact countP_swap (hit c) st.weaks i j (some ha) (some hb) hqi hqj

theorem stepWDestroy_inv (st : State) (i : Nat) (hI : Inv st) :
    Inv (stepWDestroy st i) := by
  cases hget : getW st i with
  | none =>
    have heq : stepWDestroy st i = st := by
      unfold stepWDestroy
      rw [hget]
    rw [heq]
    exact hI
  | some h =>
    have heq : stepWDestroy st i = setW (st.wRel h) i none := by
      unfold stepWDestroy
      rw [hget]
    rw [heq]
    have hqi := (getW_eq st i h).mp hget
    show invOn (weakReleaseH st.heap h).1 st.strongs
      (st.weaks.set i none) st.nextC
    refine weakReleaseH_invOn st.heap st.strongs st.weaks _ st.nextC h
      hI ?_ ?_
    · intro x hx
      rcases List.mem_or_eq_of_mem_set hx with hin | heq2
      · exact Or.inl hin
      · cases heq2
    · intro c
      exact countP_set_to_none c st.weaks i (some h) hqi

theorem stepWLock_inv (st : State) (i : Nat) (hI : Inv st) :
    Inv (stepWLock st i) := by
  cases hget : getW st i with
  | none =>
    have heq : stepWLock st i = st := by
      unfold stepWLock
      rw [hget]
    rw [heq]
    exact hI
  | some w =>
    have hbody : stepWLock st i =
        if st.Expired w then pushS st nullHandle
        else pushS (st.incS w.counter) ⟨w.ptr, w.counter⟩ := by
      unfold stepWLock
      rw [hget]
    rw [hbody]
    cases hexp : st.Expired w with
    | true =>
      rw [if_pos rfl]
      show invOn st.heap (st.strongs ++ [some nullHandle]) st.weaks st.nextC
      refine reshuffleS_invOn st.heap st.strongs st.weaks _ st.nextC hI ?_ ?_
      · intro x hx
        rcases mem_push_elim st.strongs (some nullHandle) x hx with hin | heq
        · exact Or.inl hin
        · right
          injection heq
      · intro c
        rw [countP_push, hit_nullHandle]
        simp
    | false =>
      rw [if_neg Bool.false_ne_true]
      have hq := (getW_eq st i w).mp hget
      have hm : some w ∈ st.weaks := List.get?_mem hq
      obtain ⟨hok, href⟩ := hI.2.2.1 w hm
      show invOn (incStrongH st.heap w.counter)
        (st.strongs ++ [some ⟨w.ptr, w.counter⟩]) st.weaks st.nextC
      refine incStrongH_invOn st.heap st.strongs st.weaks _ st.nextC
        ⟨w.ptr, w.counter⟩ hI ?_ (fun c => countP_push _ _ _) hok href
      intro x hx
      rcases mem_push_elim st.strongs _ x hx with hin | heq2
      · exact Or.inl hin
      · right
        injection heq2

/-- The invariant holds in the empty initial state. -/
theorem init_inv : Inv init := by
  refine ⟨?_, ?_, ?_, ?_⟩
  · intro c cnt hfc
    cases hfc
  · intro x hx
    cases hx
  · intro x hx
    cases hx
  · intro c hc
    rfl

/-- Every operation preserves the invariant. -/
theorem step_inv (st : State) (op : Op) (hI : Inv st) : Inv (step st op) := by
  cases op with
  | sDefault => exact stepSDefault_inv st hI
  | sFromRaw o => exact stepSFromRaw_inv st o hI
  | sCopy i => exact stepSCopy_inv st i hI
  | sMove i => exact stepSMove_inv st i hI
  | sFromWeak i => exact stepSFromWeak_inv st i hI
  | sAssignCopy d s => exact stepSAssignCopy_inv st d s hI
  | sAssignMove d s => exact stepSAssignMove_inv st d s hI
  | sAssignWeak d w => exact stepSAssignWeak_inv st d w hI
  | sReset i o => exact stepSReset_inv st i o hI
  | sSwap i j => exact stepSSwap_inv st i j hI
  | sDestroy i => exact stepSDestroy_inv st i hI
  | wDefault => exact stepWDefault_inv st hI
  | wFromShared i => exact stepWFromShared_inv st i hI
  | wCopy i => exact stepWCopy_inv st i hI
  | wMove i => exact stepWMove_inv st i hI
  | wAssignShared d s => exact stepWAssignShared_inv st d s hI
  | wAssignCopy d s => exact stepWAssignCopy_inv st d s hI
  | wAssignMove d s => exact stepWAssignMove_inv st d s hI
  | wReset i => exact stepWReset_inv st i hI
  | wSwap i j => exact stepWSwap_inv st i j hI
  | wDestroy i => exact stepWDestroy_inv st i hI
  | wLock i => exact stepWLock_inv st i hI

theorem foldl_inv (tr : List Op) (st : State) (hI : Inv st) :
    Inv (tr.foldl step st) := by
  induction tr generalizing st with
  | nil => exact hI
  | cons op tl ih => exact ih (step st op) (step_inv st op hI)

/-- Every state reachable from the empty initial state satisfies the
invariant. -/
theorem run_inv (tr : List Op) : Inv (run tr) :=
  foldl_inv tr init init_inv

theorem UseCount_eq (st : State) (h : Handle) (c : CAddr) (cnt : Counter)
    (hc : h.counter = some c) (hf : st.heap c = some cnt) :
    st.UseCount h = cnt.strong_count := by
  unfold State.UseCount
  rw [hc]
  show (match st.heap c with
    | none => 0
    | some cnt => cnt.strong_count) = cnt.strong_count
  rw [hf]

theorem Expired_false (st : State) (h : Handle) (c : CAddr) (cnt : Counter)
    (hc : h.counter = some c) (hf : st.heap c = some cnt)
    (hs : cnt.strong_count ≠ 0) : st.Expired h = false := by
  unfold State.Expired
  rw [UseCount_eq st h c cnt hc hf]
  exact beq_eq_false_iff_ne.mpr hs

/-- SharedPtr::Release leaves every control block other than the released
handle's own untouched. -/
theorem sharedReleaseH_other (f : CHeap) (h : Handle) (c : CAddr)
    (hne : h.counter ≠ some c) : (sharedReleaseH f h).1 c = f c := by
  cases hh : h.counter with
  | none => rw [sharedReleaseH_null f h hh]
  | some c0 =>
    have hcc : c ≠ c0 := by
      intro heq
      exact hne (by rw [hh, heq])
    cases hf : f c0 with
    | none => rw [sharedReleaseH_unalloc f h c0 hh hf]
    | some cnt =>
      by_cases hz : cnt.strong_count - 1 = 0
      · by_cases hw : cnt.weak_count = 0
        · rw [sharedReleaseH_last f h c0 cnt hh hf hz hw]
          exact fupdate_other f c0 none c hcc
        · rw [sharedReleaseH_lastStrong f h c0 cnt hh hf hz hw]
          exact fupdate_other f c0 _ c hcc
      · rw [sharedReleaseH_dec f h c0 cnt hh hf hz]
        exact fupdate_other f c0 _ c hcc

/-- WeakPtr::Release leaves every control block other than the released
handle's own untouched. -/
theorem weakReleaseH_other (f : CHeap) (h : Handle) (c : CAddr)
    (hne : h.counter ≠ some c) : (weakReleaseH f h).1 c = f c := by
  cases hh : h.counter with
  | none => rw [weakReleaseH_null f h hh]
  | some c0 =>
    have hcc : c ≠ c0 := by
      intro heq
      exact hne (by rw [hh, heq])
    cases hf : f c0 with
    | none => rw [weakReleaseH_unalloc f h c0 hh hf]
    | some cnt =>
      by_cases hz : cnt.weak_count - 1 = 0 ∧ cnt.strong_count = 0
      · rw [weakReleaseH_last f h c0 cnt hh hf hz.1 hz.2]
        exact fupdate_other f c0 none c hcc
      · rw [weakReleaseH_dec f h c0 cnt hh hf hz]
        exact fupdate_other f c0 _ c hcc

theorem getS_setS_self (st : State) (i : Nat) (x : Option Handle)
    (hlt : i < st.strongs.length) : getS (setS st i x) i = x := by
  show ((st.strongs.set i x).get? i).bind id = x
  rw [List.get?_set_eq_of_lt x hlt]
  rfl

theorem getS_setS_other (st : State) (i j : Nat) (x : Option Handle)
    (hij : i ≠ j) : getS (setS st i x) j = getS st j := by
  show ((st.strongs.set i x).get? j).bind id = (st.strongs.get? j).bind id
  rw [List.get?_set_ne x st.strongs hij]

theorem getW_setW_self (st : State) (i : Nat) (x : Option Handle)
    (hlt : i < st.weaks.length) : getW (setW st i x) i = x := by
  show ((st.weaks.set i x).get? i).bind id = x
  rw [List.get?_set_eq_of_lt x hlt]
  rfl

theorem getW_setW_other (st : State) (i j : Nat) (x : Option Handle)
    (hij : i ≠ j) : getW (setW st i x) j = getW st j := by
  show ((st.weaks.set i x).get? j).bind id = (st.weaks.get? j).bind id
  rw [List.get?_set_ne x st.weaks hij]

/-- Claim C8: assigning any handle (strong or weak) from itself, by copy
or by move, is a no-op: object reference, control-block reference, both
counts and the deletion logs are all unchanged — the resulting state is
literally the same state, so no release occurs during the assignment. -/
theorem C8_self_assignment (st : State) (i : Nat) :
    stepSAssignCopy st i i = st ∧ stepSAssignMove st i i = st ∧
      stepWAssignCopy st i i = st ∧ stepWAssignMove st i i = st := by
  refine ⟨?_, ?_, ?_, ?_⟩
  · unfold stepSAssignCopy
    rw [if_pos rfl]
  · unfold stepSAssignMove
    rw [if_pos rfl]
  · unfold stepWAssignCopy
    rw [if_pos rfl]
  · unfold stepWAssignMove
    rw [if_pos rfl]

/-- Claim C10: constructing a WeakPtr from a null SharedPtr, or assigning
a null SharedPtr to a WeakPtr, yields a null WeakPtr: no control block is
referenced, no weak count is touched beyond the release of the weak
handle's previously held block, and afterwards UseCount() is 0 and
Expired() is true. -/
theorem C10_weak_from_null_shared (st : State) (d s : Nat) (hd : Handle)
    (hs : getS st s = some nullHandle) (hgd : getW st d = some hd) :
    stepWFromShared st s = pushW st nullHandle
    ∧ stepWAssignShared st d s = setW (st.wRel hd) d (some nullHandle)
    ∧ State.UseCount (pushW st nullHandle) nullHandle = 0
    ∧ State.Expired (pushW st nullHandle) nullHandle = true
    ∧ State.UseCount (setW (st.wRel hd) d (some nullHandle)) nullHandle = 0
    ∧ State.Expired (setW (st.wRel hd) d (some nullHandle)) nullHandle
        = true := by
  refine ⟨?_, ?_, rfl, rfl, rfl, rfl⟩
  · unfold stepWFromShared
    rw [hs]
    rfl
  · unfold stepWAssignShared
    rw [hgd, hs]
    rfl

theorem C10_weak_from_null_shared_witness :
    stepWFromShared (run [Op.sDefault, Op.wDefault]) 0 =
      pushW (run [Op.sDefault, Op.wDefault]) nullHandle
    ∧ stepWAssignShared (run [Op.sDefault, Op.wDefault]) 0 0 =
        setW ((run [Op.sDefault, Op.wDefault]).wRel nullHandle) 0
          (some nullHandle)
    ∧ State.UseCount (pushW (run [Op.sDefault, Op.wDefault]) nullHandle)
        nullHandle = 0
    ∧ State.Expired (pushW (run [Op.sDefault, Op.wDefault]) nullHandle)
        nullHandle = true
    ∧ State.UseCount (setW ((run [Op.sDefault, Op.wDefault]).wRel nullHandle)
        0 (some nullHandle)) nullHandle = 0
    ∧ State.Expired (setW ((run [Op.sDefault, Op.wDefault]).wRel nullHandle)
        0 (some nullHandle)) nullHandle = true :=
  C10_weak_from_null_shared (run [Op.sDefault, Op.wDefault]) 0 0
    nullHandle rfl rfl

/-- Claim C5: WeakPtr::Lock() never raises.  On an expired weak handle it
returns a null SharedPtr and changes nothing else (the result state is
exactly the old state plus one null strong handle, so both counts are
unchanged).  On a non-expired weak handle it returns a SharedPtr whose
members equal the weak handle's (so Get() equals the original object
reference) and the only change to the heap is strong_count + 1 on that
block, the weak count unchanged. -/
theorem C5_Lock (st : State) (i : Nat) (w : Handle)
    (hget : getW st i = some w) :
    (st.Expired w = true → stepWLock st i = pushS st nullHandle)
    ∧ (∀ c cnt, w.counter = some c → st.heap c = some cnt →
        cnt.strong_count ≠ 0 →
        stepWLock st i =
          pushS { st with heap := (fupdate st.heap c
            (some ⟨cnt.strong_count + 1, cnt.weak_count⟩)) }
            ⟨w.ptr, w.counter⟩) := by
  have hbody : stepWLock st i =
      if st.Expired w then pushS st nullHandle
      else pushS (st.incS w.counter) ⟨w.ptr, w.counter⟩ := by
    unfold stepWLock
    rw [hget]
  constructor
  · intro hexp
    rw [hbody, if_pos hexp]
  · intro c cnt hc hf hs
    have hexp : st.Expired w = false := Expired_false st w c cnt hc hf hs
    rw [hbody, if_neg (by rw [hexp]; exact Bool.false_ne_true)]
    unfold State.incS
    rw [hc, incStrongH_alloc st.heap c cnt hf]

/-- Claim C1, counterexample: Reset(p) with p equal to the pointer the
handle currently holds is a no-op, because of the `if (ptr != ptr_)` guard.
With two owners of the object at address 7, calling Reset(7) on the first
handle leaves UseCount() at 2 (the claim demands 1), allocates no fresh
control block (nextC stays 1) and releases nothing (no deletion logged). -/
theorem C1_Reset_counterexample :
    getS (run [Op.sFromRaw (some 7), Op.sCopy 0, Op.sReset 0 (some 7)]) 0 =
      some ⟨some 7, some 0⟩
    ∧ State.UseCount
        (run [Op.sFromRaw (some 7), Op.sCopy 0, Op.sReset 0 (some 7)])
        ⟨some 7, some 0⟩ = 2
    ∧ (run [Op.sFromRaw (some 7), Op.sCopy 0, Op.sReset 0 (some 7)]).nextC = 1
    ∧ (run [Op.sFromRaw (some 7), Op.sCopy 0,
        Op.sReset 0 (some 7)]).deletedObjs = [] := by
  decide

/-- Claim C1, amended: Reset(p) with p different from the currently held
pointer first releases the current ownership via the release protocol and
then, if p is non-null, adopts p with a freshly allocated control block
whose strong count is 1 and weak count is 0, so UseCount() == 1
afterwards; Reset(null) on a handle not already null releases and leaves
the handle null; Reset(p) with p equal to the currently held pointer
(including null on an already-null handle) is a no-op. -/
theorem C1_Reset (st : State) (i : Nat) (h : Handle) (o : Option OAddr)
    (hget : getS st i = some h) :
    (o = h.ptr → stepSReset st i o = st)
    ∧ (∀ a, o = some a → o ≠ h.ptr →
        stepSReset st i o =
          setS (st.sRel h).alloc i (some ⟨some a, some st.nextC⟩)
        ∧ (stepSReset st i o).heap st.nextC = some ⟨1, 0⟩
        ∧ State.UseCount (stepSReset st i o) ⟨some a, some st.nextC⟩ = 1)
    ∧ (o = none → o ≠ h.ptr →
        stepSReset st i o = setS (st.sRel h) i (some nullHandle)) := by
  have hbody : stepSReset st i o =
      if o = h.ptr then st
      else
        match o with
        | some a => setS (st.sRel h).alloc i (some ⟨some a, some st.nextC⟩)
        | none => setS (st.sRel h) i (some nullHandle) := by
    unfold stepSReset
    rw [hget]
  refine ⟨?_, ?_, ?_⟩
  · intro ho
    rw [hbody, if_pos ho]
  · intro a hoa hne
    subst hoa
    rw [hbody, if_neg hne]
    have hheap : (setS (st.sRel h).alloc i
        (some ⟨some a, some st.nextC⟩)).heap st.nextC =
        some (⟨1, 0⟩ : Counter) := by
      show fupdate (st.sRel h).heap st.nextC (some Counter.init) st.nextC =
        some ⟨1, 0⟩
      rw [fupdate_self]
      rfl
    refine ⟨rfl, hheap, ?_⟩
    rw [UseCount_eq _ ⟨some a, some st.nextC⟩ st.nextC ⟨1, 0⟩ rfl hheap]
  · intro hon hne
    subst hon
    rw [hbody, if_neg hne]

theorem C1_Reset_witness :
    stepSReset (run [Op.sFromRaw (some 7)]) 0 (some 9) =
      setS ((run [Op.sFromRaw (some 7)]).sRel ⟨some 7, some 0⟩).alloc 0
        (some ⟨some 9, some (run [Op.sFromRaw (some 7)]).nextC⟩)
    ∧ (stepSReset (run [Op.sFromRaw (some 7)]) 0
        (some 9)).heap (run [Op.sFromRaw (some 7)]).nextC = some ⟨1, 0⟩
    ∧ State.UseCount (stepSReset (run [Op.sFromRaw (some 7)]) 0 (some 9))
        ⟨some 9, some (run [Op.sFromRaw (some 7)]).nextC⟩ = 1 :=
  (C1_Reset (run [Op.sFromRaw (some 7)]) 0 ⟨some 7, some 0⟩ (some 9)
    rfl).2.1 9 rfl (by decide)

/-- Claim C4, counterexample: with a sole-owner SharedPtr at slot 0 and a
WeakPtr on the same block, the weak handle is not expired (strong count
is 1), yet assigning it to that SharedPtr leaves strong_count at 1 instead
of incrementing it by one to 2 — operator= first runs Release() on the
target, which here destroys the managed object (deletion of address 7 is
logged) before the increment. -/
theorem C4_promotion_counterexample :
    State.Expired (run [Op.sFromRaw (some 7), Op.wFromShared 0])
      ⟨some 7, some 0⟩ = false
    ∧ (run [Op.sFromRaw (some 7), Op.wFromShared 0]).heap 0 = some ⟨1, 1⟩
    ∧ (run [Op.sFromRaw (some 7), Op.wFromShared 0,
        Op.sAssignWeak 0 0]).heap 0 = some ⟨1, 1⟩
    ∧ (run [Op.sFromRaw (some 7), Op.wFromShared 0,
        Op.sAssignWeak 0 0]).deletedObjs = [7] := by
  decide

/-- Claim C4, amended: constructing a SharedPtr from an expired WeakPtr,
or assigning an expired WeakPtr to a SharedPtr, raises BadWeakPtr and
changes nothing (the state, hence every count and the target handle's
members, is exactly unchanged).  When the weak handle is not expired, the
construction shares its object and block and increments strong_count by
one; the assignment first releases the target's prior ownership via the
release protocol and then shares and increments, so strong_count of the
weak handle's block rises by one relative to the post-release state —
net one higher than before only when the target did not already reference
that same block. -/
theorem C4_promotion (st : State) (d wi : Nat) (hd hw : Handle)
    (hgd : getS st d = some hd) (hgw : getW st wi = some hw) :
    (st.Expired hw = true →
      stepSFromWeak st wi = st ∧ stepSAssignWeak st d wi = st)
    ∧ (∀ c cnt, hw.counter = some c → st.heap c = some cnt →
        cnt.strong_count ≠ 0 →
        stepSFromWeak st wi =
          pushS { st with heap := (fupdate st.heap c
            (some ⟨cnt.strong_count + 1, cnt.weak_count⟩)) }
            ⟨hw.ptr, hw.counter⟩
        ∧ stepSAssignWeak st d wi =
            setS ((st.sRel hd).incS hw.counter) d (some ⟨hw.ptr, hw.counter⟩)
        ∧ (hd.counter ≠ some c →
            (stepSAssignWeak st d wi).heap c =
              some ⟨cnt.strong_count + 1, cnt.weak_count⟩
            ∧ getS (stepSAssignWeak st d wi) d =
                some ⟨hw.ptr, hw.counter⟩)) := by
  have hbody1 : stepSFromWeak st wi =
      if st.Expired hw then st
      else pushS (st.incS hw.counter) ⟨hw.ptr, hw.counter⟩ := by
    unfold stepSFromWeak
    rw [hgw]
  have hbody2 : stepSAssignWeak st d wi =
      if st.Expired hw then st
      else setS ((st.sRel hd).incS hw.counter) d
        (some ⟨hw.ptr, hw.counter⟩) := by
    unfold stepSAssignWeak
    rw [hgd, hgw]
  constructor
  · intro hexp
    rw [hbody1, hbody2, if_pos hexp, if_pos hexp]
    exact ⟨rfl, rfl⟩
  · intro c cnt hc hf hs
    have hexp : st.Expired hw = false := Expired_false st hw c cnt hc hf hs
    have hnexp : ¬st.Expired hw = true := by
      rw [hexp]
      exact Bool.false_ne_true
    refine ⟨?_, ?_, ?_⟩
    · rw [hbody1, if_neg hnexp]
      unfold State.incS
      rw [hc, incStrongH_alloc st.heap c cnt hf]
    · rw [hbody2, if_neg hnexp]
    · intro hdc
      have h1 : (sharedReleaseH st.heap hd).1 c = some cnt := by
        rw [sharedReleaseH_other st.heap hd c hdc]
        exact hf
      constructor
      · rw [hbody2, if_neg hnexp]
        show incStrongH (sharedReleaseH st.heap hd).1 hw.counter c =
          some ⟨cnt.strong_count + 1, cnt.weak_count⟩
        rw [hc, incStrongH_alloc _ c cnt h1, fupdate_self]
      · rw [hbody2, if_neg hnexp]
        have hlt : d < st.strongs.length :=
          lt_length_of_get? st.strongs d (some hd) ((getS_eq st d hd).mp hgd)
        exact getS_setS_self ((st.sRel hd).incS hw.counter) d
          (some ⟨hw.ptr, hw.counter⟩) hlt

theorem C4_promotion_witness :
    (stepSAssignWeak
        (run [Op.sFromRaw (some 7), Op.wFromShared 0, Op.sDefault]) 1 0).heap
        0 = some ⟨2, 1⟩
    ∧ getS (stepSAssignWeak
        (run [Op.sFromRaw (some 7), Op.wFromShared 0, Op.sDefault]) 1 0) 1 =
        some ⟨some 7, some 0⟩ :=
  (C4_promotion (run [Op.sFromRaw (some 7), Op.wFromShared 0, Op.sDefault])
    1 0 nullHandle ⟨some 7, some 0⟩ rfl rfl).2 0 ⟨1, 1⟩ rfl rfl
    (by decide) |>.2.2 (by decide)

/-- Claim C7, counterexample: when the destination of a move assignment
already shares the source's control block, the destination does not end
up with "exactly the source's prior object reference and counts": two
handles share block 0 with strong_count 2; after moving handle 1 into
handle 0, strong_count is 1 (Release() on the destination ran first),
not the source's prior 2. -/
theorem C7_move_counterexample :
    (run [Op.sFromRaw (some 7), Op.sCopy 0]).heap 0 = some ⟨2, 0⟩
    ∧ (run [Op.sFromRaw (some 7), Op.sCopy 0, Op.sAssignMove 0 1]).heap 0 =
        some ⟨1, 0⟩
    ∧ getS (run [Op.sFromRaw (some 7), Op.sCopy 0, Op.sAssignMove 0 1]) 0 =
        some ⟨some 7, some 0⟩
    ∧ getS (run [Op.sFromRaw (some 7), Op.sCopy 0, Op.sAssignMove 0 1]) 1 =
        some nullHandle
    ∧ State.UseCount
        (run [Op.sFromRaw (some 7), Op.sCopy 0, Op.sAssignMove 0 1])
        ⟨some 7, some 0⟩ = 1 := by
  decide

/-- Claim C7, amended: move construction (strong and weak) transfers the
object and control-block references without touching the heap at all and
leaves the source null.  Move assignment between distinct handles first
releases the destination's prior ownership via the release protocol and
then transfers the members, leaving the source null; every control block
other than the destination's previously referenced one is untouched, so
when the destination did not already reference the source's block the
destination ends with exactly the source's prior object reference and
counts. -/
theorem C7_move (st : State) :
    (∀ i h, getS st i = some h →
      stepSMove st i = pushS (setS st i (some nullHandle)) h
      ∧ (stepSMove st i).heap = st.heap)
    ∧ (∀ i h, getW st i = some h →
      stepWMove st i = pushW (setW st i (some nullHandle)) h
      ∧ (stepWMove st i).heap = st.heap)
    ∧ (∀ d s hd hs, d ≠ s → getS st d = some hd → getS st s = some hs →
        stepSAssignMove st d s =
          setS (setS (st.sRel hd) d (some hs)) s (some nullHandle)
        ∧ getS (stepSAssignMove st d s) d = some hs
        ∧ getS (stepSAssignMove st d s) s = some nullHandle
        ∧ (∀ c, hd.counter ≠ some c →
            (stepSAssignMove st d s).heap c = st.heap c))
    ∧ (∀ d s hd hs, d ≠ s → getW st d = some hd → getW st s = some hs →
        stepWAssignMove st d s =
          setW (setW (st.wRel hd) d (some hs)) s (some nullHandle)
        ∧ getW (stepWAssignMove st d s) d = some hs
        ∧ getW (stepWAssignMove st d s) s = some nullHandle
        ∧ (∀ c, hd.counter ≠ some c →
            (stepWAssignMove st d s).heap c = st.heap c)) := by
  refine ⟨?_, ?_, ?_, ?_⟩
  · intro i h hget
    have heq : stepSMove st i = pushS (setS st i (some nullHandle)) h := by
      unfold stepSMove
      rw [hget]
    exact ⟨heq, by rw [heq]; rfl⟩
  · intro i h hget
    have heq : stepWMove st i = pushW (setW st i (some nullHandle)) h := by
      unfold stepWMove
      rw [hget]
    exact ⟨heq, by rw [heq]; rfl⟩
  · intro d s hd hs hds hgd hgs
    have heq : stepSAssignMove st d s =
        setS (setS (st.sRel hd) d (some hs)) s (some nullHandle) := by
      unfold stepSAssignMove
      rw [if_neg hds, hgd, hgs]
    have hltd : d < st.strongs.length :=
      lt_length_of_get? st.strongs d (some hd) ((getS_eq st d hd).mp hgd)
    have hlts : s < st.strongs.length :=
      lt_length_of_get? st.strongs s (some hs) ((getS_eq st s hs).mp hgs)
    refine ⟨heq, ?_, ?_, ?_⟩
    · rw [heq]
      rw [getS_setS_other (setS (st.sRel hd) d (some hs)) s d
        (some nullHandle) (fun hx => hds hx.symm)]
      exact getS_setS_self (st.sRel hd) d (some hs) hltd
    · rw [heq]
      refine getS_setS_self (setS (st.sRel hd) d (some hs)) s
        (some nullHandle) ?_
      show s < (st.strongs.set d (some hs)).length
      rw [List.length_set]
      exact hlts
    · intro c hc
      rw [heq]
      exact sharedReleaseH_other st.heap hd c hc
  · intro d s hd hs hds hgd hgs
    have heq : stepWAssignMove st d s =
        setW (setW (st.wRel hd) d (some hs)) s (some nullHandle) := by
      unfold stepWAssignMove
      rw [if_neg hds, hgd, hgs]
    have hltd : d < st.weaks.length :=
      lt_length_of_get? st.weaks d (some hd) ((getW_eq st d hd).mp hgd)
    have hlts : s < st.weaks.length :=
      lt_length_of_get? st.weaks s (some hs) ((getW_eq st s hs).mp hgs)
    refine ⟨heq, ?_, ?_, ?_⟩
    · rw [heq]
      rw [getW_setW_other (setW (st.wRel hd) d (some hs)) s d
        (some nullHandle) (fun hx => hds hx.symm)]
      exact getW_setW_self (st.wRel hd) d (some hs) hltd
    · rw [heq]
      refine getW_setW_self (setW (st.wRel hd) d (some hs)) s
        (some nullHandle) ?_
      show s < (st.weaks.set d (some hs)).length
      rw [List.length_set]
      exact hlts
    · intro c hc
      rw [heq]
      exact weakReleaseH_other st.heap hd c hc

theorem C7_move_witness :
    getS (stepSAssignMove (run [Op.sFromRaw (some 7), Op.sFromRaw (some 8)])
        0 1) 0 = some ⟨some 8, some 1⟩
    ∧ getS (stepSAssignMove (run [Op.sFromRaw (some 7), Op.sFromRaw (some 8)])
        0 1) 1 = some nullHandle
    ∧ (stepSAssignMove (run [Op.sFromRaw (some 7), Op.sFromRaw (some 8)])
        0 1).heap 1 =
        (run [Op.sFromRaw (some 7), Op.sFromRaw (some 8)]).heap 1 := by
  have h := (C7_move (run [Op.sFromRaw (some 7), Op.sFromRaw (some 8)])).2.2.1
    0 1 ⟨some 7, some 0⟩ ⟨some 8, some 1⟩ (by decide) rfl rfl
  exact ⟨h.2.1, h.2.2.1, h.2.2.2 1 (by decide)⟩

/-- Claim C2: evaluation of the code at the failing input.  A sole-owner
SharedPtr on block 0 is assigned from a WeakPtr on the same block.
operator=(const WeakPtr&) passes the Expired() check (strong_count is 1),
then Release() drops strong_count to 0 and destroys the managed object
(the deletion of address 7 is logged — destruction fires only when the
count reaches 0), and then the increment brings strong_count back to 1:
the block has returned to Live after its object was destroyed, so the
operation did pass through strong_count == 0 and back to 1, which the
claim (and the spec's state machine) says can never happen. -/
theorem C2_revival_at_failing_input :
    (run [Op.sFromRaw (some 7), Op.wFromShared 0, Op.sAssignWeak 0 0]).heap
      0 = some ⟨1, 1⟩
    ∧ (run [Op.sFromRaw (some 7), Op.wFromShared 0,
        Op.sAssignWeak 0 0]).deletedObjs = [7]
    ∧ getS (run [Op.sFromRaw (some 7), Op.wFromShared 0,
        Op.sAssignWeak 0 0]) 0 = some ⟨some 7, some 0⟩ := by
  decide

/-- Claim C3: evaluation of the code at the failing input.  After the
self-aliasing weak-to-strong assignment of C2, destroying the SharedPtr
and then the WeakPtr passes the object at address 7 to `delete` a second
time: the deletion log is [7, 7] — the managed object's destruction runs
twice, not exactly once (the control block itself is deallocated once). -/
theorem C3_double_destruction_at_failing_input :
    (run [Op.sFromRaw (some 7), Op.wFromShared 0, Op.sAssignWeak 0 0,
      Op.sDestroy 0, Op.wDestroy 0]).deletedObjs = [7, 7]
    ∧ (run [Op.sFromRaw (some 7), Op.wFromShared 0, Op.sAssignWeak 0 0,
        Op.sDestroy 0, Op.wDestroy 0]).freedCtrs = [0] := by
  decide

/-- Claim C6: in every state reachable by any sequence of handle
operations, every allocated control block's strong_count equals the
number of live SharedPtr objects referencing it and its weak_count equals
the number of live WeakPtr objects referencing it; and UseCount()
observed on any surviving SharedPtr that references a block reports
exactly that number of live SharedPtr objects. -/
theorem C6_counts (tr : List Op) :
    (∀ c cnt, (run tr).heap c = some cnt →
      cnt.strong_count = nStrong (run tr) c
      ∧ cnt.weak_count = nWeak (run tr) c)
    ∧ (∀ i h c, getS (run tr) i = some h → h.counter = some c →
        State.UseCount (run tr) h = nStrong (run tr) c) := by
  have hI := run_inv tr
  constructor
  · exact hI.1
  · intro i h c hget hc
    have hm : some h ∈ (run tr).strongs :=
      List.get?_mem ((getS_eq (run tr) i h).mp hget)
    have href := (hI.2.1 h hm).2 c hc
    rw [Option.isSome_iff_exists] at href
    obtain ⟨cnt, hcnt⟩ := href
    rw [UseCount_eq (run tr) h c cnt hc hcnt]
    exact (hI.1 c cnt hcnt).1

theorem C6_counts_witness :
    (Counter.strong_count ⟨2, 1⟩ =
        nStrong (run [Op.sFromRaw (some 7), Op.sCopy 0, Op.wFromShared 0]) 0
      ∧ Counter.weak_count ⟨2, 1⟩ =
        nWeak (run [Op.sFromRaw (some 7), Op.sCopy 0, Op.wFromShared 0]) 0)
    ∧ State.UseCount (run [Op.sFromRaw (some 7), Op.sCopy 0,
        Op.wFromShared 0]) ⟨some 7, some 0⟩ =
        nStrong (run [Op.sFromRaw (some 7), Op.sCopy 0,
          Op.wFromShared 0]) 0 :=
  ⟨(C6_counts [Op.sFromRaw (some 7), Op.sCopy 0, Op.wFromShared 0]).1 0
      ⟨2, 1⟩ rfl,
    (C6_counts [Op.sFromRaw (some 7), Op.sCopy 0, Op.wFromShared 0]).2 0
      ⟨some 7, some 0⟩ 0 rfl rfl⟩

/-- Claim C9: in every state reachable by any sequence of handle
operations, every live handle — strong or weak — has its object reference
and its control-block reference null together or non-null together. -/
theorem C9_null_together (tr : List Op) :
    (∀ i h, getS (run tr) i = some h →
      (h.ptr.isSome ↔ h.counter.isSome))
    ∧ (∀ i h, getW (run tr) i = some h →
      (h.ptr.isSome ↔ h.counter.isSome)) := by
  have hI := run_inv tr
  constructor
  · intro i h hget
    exact (hI.2.1 h (List.get?_mem ((getS_eq (run tr) i h).mp hget))).1
  · intro i h hget
    exact (hI.2.2.1 h (List.get?_mem ((getW_eq (run tr) i h).mp hget))).1

theorem C9_null_together_witness :
    ((⟨some 7, some 0⟩ : Handle).ptr.isSome ↔
      (⟨some 7, some 0⟩ : Handle).counter.isSome) :=
  (C9_null_together [Op.sFromRaw (some 7)]).1 0 ⟨some 7, some 0⟩ rfl

theorem C5_Lock_witness :
    stepWLock (run [Op.sFromRaw (some 7), Op.wFromShared 0]) 0 =
      pushS { run [Op.sFromRaw (some 7), Op.wFromShared 0] with
        heap := (fupdate (run [Op.sFromRaw (some 7), Op.wFromShared 0]).heap 0 (some ⟨2, 1⟩)) }
        ⟨some 7, some 0⟩ :=
  (C5_Lock (run [Op.sFromRaw (some 7), Op.wFromShared 0]) 0
    ⟨some 7, some 0⟩ rfl).2 0 ⟨1, 1⟩ rfl rfl (by decide)

end SPtr
